import Mathlib

/-!
warlog: the controller, the entry-list loader and the file store.

A shallow embedding of `main.go`.  The file store is the directory tree found at
`dataDir`, with the permission bits and the symbolic links the program can meet; the
terminal widgets (`list.Model`, `textarea.Model`) are external collaborators whose
accessors are embedded and whose update functions are parameters.

Assumed of the file store: every node belongs to the user who runs the program; no two
paths lead to the same file (no file has two names, a symbolic link leads out of the data
directory and no two links lead to the same place); nothing but the program changes the
tree while it runs.  Left out: the time stamps of directories, since the program reads the
modification time only of the non-directories it lists.
-/

namespace Warlog

/-! ## File store -/

mutual
/-- A node of the directory tree: a regular file with its modification time (nanoseconds),
contents and permission bits; a directory with its permission bits and listing; a symbolic
link with what lies behind it; or a node on which `os.Lstat` returns an error. -/
inductive Node where
  | file (modTime : Int) (content : String) (mode : Nat)
  | dir (mode : Nat) (entries : Entries)
  | link (target : Target)
  | denied
/-- What a symbolic link resolves to: a regular file, a directory (with the modification
time `os.Stat` reports through the link), nothing yet in a directory that admits a new
entry (a dangling link), or nothing that can be reached (`os.Stat` and `os.OpenFile`
fail). -/
inductive Target where
  | file (modTime : Int) (content : String) (mode : Nat)
  | dir (modTime : Int) (mode : Nat) (entries : Entries)
  | absent
  | unreachable
/-- A directory listing, in the order `readDirNames` returns it. -/
inductive Entries where
  | nil
  | cons (name : String) (node : Node) (rest : Entries)
end

/-- What `os.Stat` finds behind a symbolic link. -/
inductive Resolved where
  | file (modTime : Int) (content : String) (mode : Nat)
  | dir (modTime : Int) (mode : Nat)
  | absent
  | unreachable
  deriving DecidableEq, Repr

/-- What `os.Lstat` and a read report about a path. -/
inductive Info where
  | file (modTime : Int) (content : String) (mode : Nat)
  | dir (mode : Nat)
  | link (target : Resolved)
  | denied
  deriving DecidableEq, Repr

/-- The file store as the process sees it: the configured data directory (`dataDir`), the
node found there, the file mode creation mask of the process, and whether the process is
the superuser, for whom permission bits are not checked. -/
structure FS where
  dataDir : String
  root : Node
  umask : Nat
  privileged : Bool

/-- The owner may read (bit 0400). -/
def mayRead (priv : Bool) (mode : Nat) : Bool := priv || (mode &&& 256 != 0)

/-- The owner may write (bit 0200). -/
def mayWrite (priv : Bool) (mode : Nat) : Bool := priv || (mode &&& 128 != 0)

/-- The owner may search the directory (bit 0100). -/
def maySearch (priv : Bool) (mode : Nat) : Bool := priv || (mode &&& 64 != 0)

/-- The permission bits of a file created with `perm` 0644 under the mask. -/
def newMode (umask : Nat) : Nat := 420 &&& (511 ^^^ (umask &&& 511))

/-! ### Paths -/

/-- The elements of a path between its separators. -/
def splitSep : List Char → List (List Char)
  | [] => [[]]
  | c :: cs =>
    if c = '/' then [] :: splitSep cs
    else
      match splitSep cs with
      | [] => [[c]]
      | e :: es => (c :: e) :: es

/-- One step of `filepath.Clean`: the element `elem` meets the elements kept so far (last
one first).  Empty elements and "." are dropped, ".." removes the last kept element, stays
when there is none to remove in a relative path, and is dropped at the root. -/
def cleanStep (rooted : Bool) (out : List (List Char)) (elem : List Char) : List (List Char) :=
  if elem = [] then out
  else if elem = ['.'] then out
  else if elem = ['.', '.'] then
    match out with
    | [] => if rooted then [] else [elem]
    | top :: below => if top = ['.', '.'] then elem :: out else below
  else elem :: out

/-- The elements joined by separators. -/
def joinSep : List (List Char) → List Char
  | [] => []
  | [e] => e
  | e :: f :: rest => e ++ '/' :: joinSep (f :: rest)

/-- Whether the path begins with a separator. -/
def rootedPath (path : List Char) : Bool := path.head? = some '/'

/-- The elements `filepath.Clean` keeps of a path, last one first. -/
def cleanStack (path : List Char) : List (List Char) :=
  (splitSep path).foldl (cleanStep (rootedPath path)) []

/-- The text of a cleaned path with the given kept elements (last one first). -/
def render (rooted : Bool) (stack : List (List Char)) : List Char :=
  if rooted then '/' :: joinSep stack.reverse
  else if stack = [] then ['.']
  else joinSep stack.reverse

/-- The shortest equivalent path, `filepath.Clean(path)`. -/
def Clean (path : String) : String :=
  ⟨render (rootedPath path.data) (cleanStack path.data)⟩

/-- Path join, `filepath.Join(dir, name)`: empty leading elements are ignored, the rest is
joined by separators and cleaned. -/
def Join (dir name : String) : String :=
  if dir ≠ "" then Clean (dir ++ "/" ++ name)
  else if name ≠ "" then Clean name
  else ""

/-- Backward scan of `filepath.Ext`: `rev` is the part of the path not yet scanned
(reversed), `acc` the suffix already passed. -/
def extScan : List Char → List Char → List Char
  | [], _ => []
  | c :: rev, acc =>
    if c = '/' then []
    else if c = '.' then c :: acc
    else extScan rev (c :: acc)

/-- The extension `filepath.Ext(path)`: the suffix starting at the last dot of the last
path element. -/
def Ext (path : String) : String := ⟨extScan path.data.reverse []⟩

/-- Scan of `filepath.Base` over the reversed path, trailing separators already
stripped: the last path element, reversed. -/
def baseScan : List Char → List Char
  | [] => []
  | c :: rev => if c = '/' then [] else c :: baseScan rev

/-- The last path element, `filepath.Base(path)`. -/
def Base (path : String) : String :=
  if path = "" then "."
  else
    let stripped := path.data.reverse.dropWhile (fun c => c = '/')
    let last := (baseScan stripped).reverse
    if last = [] then "/" else ⟨last⟩

/-! ### Looking up paths -/

/-- What `os.Stat` finds behind a link, without the listing of a linked directory. -/
def Target.resolved : Target → Resolved
  | .file t c mode => Resolved.file t c mode
  | .dir t mode _ => Resolved.dir t mode
  | .absent => Resolved.absent
  | .unreachable => Resolved.unreachable

mutual
/-- The pairs (path, info) of the paths at and below `path` that resolve to a node.  A path
resolves through a directory, linked or not, only if the process may search it (`vis`). -/
def Node.ls (priv vis : Bool) (path : String) : Node → List (String × Info)
  | .file t c mode => [(path, if vis then Info.file t c mode else Info.denied)]
  | .dir mode es =>
    (path, if vis then Info.dir mode else Info.denied) ::
      es.ls priv (vis && maySearch priv mode) path
  | .link target =>
    (path, if vis then Info.link target.resolved else Info.denied) :: target.ls priv vis path
  | .denied => [(path, Info.denied)]
/-- The paths that resolve through the link at `path`. -/
def Target.ls (priv vis : Bool) (path : String) : Target → List (String × Info)
  | .dir _ mode es => es.ls priv (vis && maySearch priv mode) path
  | _ => []
/-- The paths that resolve to the entries of the directory `path` and below. -/
def Entries.ls (priv vis : Bool) (path : String) : Entries → List (String × Info)
  | .nil => []
  | .cons name n rest => n.ls priv vis (Join path name) ++ rest.ls priv vis path
end

/-- The answer of `os.Lstat(path)` on the file store, with the content for a file. -/
def FS.lstat (fs : FS) (path : String) : Option Info :=
  (fs.root.ls fs.privileged true fs.dataDir).lookup path

/-- The modification time `os.Stat(path).ModTime()`; `none` where `os.Stat` returns an
error and no `FileInfo`.  `os.Stat` follows a link.  A directory of the tree has no time
stamp in this model and none is ever read: the comparison of `loadFiles` is called on
paths that the walk listed as non-directories (`walked_not_dir`). -/
def FS.ModTime (fs : FS) (path : String) : Option Int :=
  match fs.lstat path with
  | some (Info.file t _ _) => some t
  | some (Info.link (Resolved.file t _ _)) => some t
  | some (Info.link (Resolved.dir t _)) => some t
  | some (Info.dir _) => some 0
  | _ => none

/-- The bytes of the regular file the path leads to, through a link if it is one. -/
def FS.contentAt (fs : FS) (path : String) : Option String :=
  match fs.lstat path with
  | some (Info.file _ c _) => some c
  | some (Info.link (Resolved.file _ c _)) => some c
  | _ => none

/-- The bytes `os.ReadFile(path)` returns: those of the file the path leads to, if the
process may read it. -/
def FS.ReadFile (fs : FS) (path : String) : Option String :=
  match fs.lstat path with
  | some (Info.file _ c mode) => if mayRead fs.privileged mode then some c else none
  | some (Info.link (Resolved.file _ c mode)) =>
    if mayRead fs.privileged mode then some c else none
  | _ => none

/-! ### The entry list -/

mutual
/-- The callback of `loadFiles` run by `filepath.Walk` over the subtree at `path`:
`files` is the slice collected so far; the flag is false once the callback has been handed
an error and returned it, which stops the walk.  `filepath.Walk` reads nodes with
`os.Lstat` and does not follow links: a link is a non-directory. -/
def Node.walk (priv : Bool) (path : String) : Node → List String → List String × Bool
  | .file _ _ _, files => (if Ext path = ".md" then files ++ [path] else files, true)
  | .link _, files => (if Ext path = ".md" then files ++ [path] else files, true)
  | .dir mode es, files =>
    if mayRead priv mode then es.walk priv (maySearch priv mode) path files
    else (files, false)
  | .denied, files => (files, false)
/-- Walk over the children of the directory `path`; `search` says whether `os.Lstat`
succeeds on them. -/
def Entries.walk (priv search : Bool) (path : String) :
    Entries → List String → List String × Bool
  | .nil, files => (files, true)
  | .cons name n rest, files =>
    if search then
      match n.walk priv (Join path name) files with
      | (files1, true) => rest.walk priv search path files1
      | (files1, false) => (files1, false)
    else (files, false)
end

/-- Ways in which the program ends instead of returning from a call. -/
inductive Failure where
  | fatal
  | indexOutOfRange
  | nilDereference
  deriving DecidableEq, Repr

instance {ε α : Type} [DecidableEq ε] [DecidableEq α] : DecidableEq (Except ε α)
  | .ok a, .ok b =>
    if h : a = b then isTrue (congrArg Except.ok h) else isFalse (fun h2 => h (Except.ok.inj h2))
  | .error a, .error b =>
    if h : a = b then isTrue (congrArg Except.error h)
    else isFalse (fun h2 => h (Except.error.inj h2))
  | .ok _, .error _ => isFalse (fun h => Except.noConfusion h)
  | .error _, .ok _ => isFalse (fun h => Except.noConfusion h)

/-- The comparison function `loadFiles` hands to `sort.Slice`; `none` is the panic of
calling `ModTime()` on the nil `FileInfo` of a failed `os.Stat`, whose error the function
drops.  The times `os.Stat` returns carry no monotonic reading and all have the local
location, so `==` on them is equality of the instants; strings compare byte-wise. -/
def less (fs : FS) (a b : String) : Option Bool :=
  match fs.ModTime a, fs.ModTime b with
  | some ta, some tb => some (if ta = tb then decide (a.data < b.data) else decide (ta < tb))
  | _, _ => none

/-- Inner loop of the insertion sort of package `sort`: the element `x` moves left while it
is less than its left neighbour.  The sorted front part is held in reverse. -/
def siftLeft {α : Type} (lt : α → α → Option Bool) (x : α) : List α → Option (List α)
  | [] => some [x]
  | y :: rev =>
    match lt x y with
    | none => none
    | some true => (siftLeft lt x rev).map (fun r => y :: r)
    | some false => some (x :: y :: rev)

/-- The outer loop of the insertion sort. -/
def sortLoop {α : Type} (lt : α → α → Option Bool) : List α → List α → Option (List α)
  | [], rev => some rev
  | x :: xs, rev =>
    match siftLeft lt x rev with
    | none => none
    | some rev1 => sortLoop lt xs rev1

/-- Sorting, `sort.Slice(xs, lt)`, by the insertion sort the package runs on short slices;
`none` when the comparison panics.  On longer slices the package sorts by other routines;
they too compare every element of a slice of two or more, and for the comparison of
`loadFiles`, a strict total order on distinct paths, every correct routine returns the
same slice (`sorted_perm_unique`). -/
def sortSlice {α : Type} (lt : α → α → Option Bool) (xs : List α) : Option (List α) :=
  (sortLoop lt xs []).map List.reverse

/-- The slice `filepath.Walk` leaves in `files`. -/
def FS.walked (fs : FS) : List String := (fs.root.walk fs.privileged fs.dataDir []).1

/-- The loader `loadFiles()`: walk the data directory, keep the `.md` non-directories,
sort them. -/
def loadFiles (fs : FS) : Except Failure (List String) :=
  match sortSlice (less fs) fs.walked with
  | some files => .ok files
  | none => .error Failure.nilDereference

/-! ### Writing -/

/-- The node after `os.OpenFile(path, O_WRONLY|O_CREATE|O_TRUNC, 0644)` followed by the
write, when `path` exists: a file the process may write is truncated and written, a link
is followed (a dangling one has its target created), a directory or a node out of reach
makes the call fail. -/
def Node.written (priv : Bool) (umask : Nat) (t : Int) (content : String) : Node → Option Node
  | .file _ _ mode => if mayWrite priv mode then some (.file t content mode) else none
  | .link (.file _ _ mode) =>
    if mayWrite priv mode then some (.link (.file t content mode)) else none
  | .link .absent => some (.link (.file t content (newMode umask)))
  | _ => none

/-- Whether a listing has an entry called `name`. -/
def Entries.hasName (name : String) : Entries → Bool
  | .nil => false
  | .cons n _ rest => decide (n = name) || rest.hasName name

/-- The listing after the write to its entry `name`. -/
def Entries.overwrite (priv : Bool) (umask : Nat) (name : String) (t : Int) (content : String) :
    Entries → Option Entries
  | .nil => none
  | .cons n x rest =>
    if n = name then (x.written priv umask t content).map (fun y => .cons n y rest)
    else (rest.overwrite priv umask name t content).map (fun r => .cons n x r)

/-- The listing with a new entry, at its place in the order of the names. -/
def Entries.insert (name : String) (node : Node) : Entries → Entries
  | .nil => .cons name node .nil
  | .cons n x rest =>
    if name.data < n.data then .cons name node (.cons n x rest)
    else .cons n x (rest.insert name node)

/-- The listing of a directory with permission bits `mode` after
`os.WriteFile(dir/name, content, 0644)`: the directory must admit a search; an entry that
exists is written, a new one needs the directory to admit a write and gets the bits 0644
less the mask. -/
def Entries.put (priv : Bool) (umask mode : Nat) (name : String) (t : Int) (content : String)
    (es : Entries) : Option Entries :=
  if maySearch priv mode then
    if es.hasName name then es.overwrite priv umask name t content
    else if mayWrite priv mode then
      some (es.insert name (.file t content (newMode umask)))
    else none
  else none

/-- The call `os.WriteFile(filepath.Join(dataDir, name), content, 0644)` at time `t`;
`none` is the error return.  The data directory may be a directory or a link to one. -/
def FS.WriteFile (fs : FS) (name : String) (content : String) (t : Int) : Option FS :=
  match fs.root with
  | .dir mode es =>
    (es.put fs.privileged fs.umask mode name t content).map
      (fun es1 => { fs with root := .dir mode es1 })
  | .link (.dir time mode es) =>
    (es.put fs.privileged fs.umask mode name t content).map
      (fun es1 => { fs with root := .link (.dir time mode es1) })
  | _ => none

/-! ### Time stamps -/

/-- A value of `time.Now()`: the instant and its calendar fields in local time. -/
structure Time where
  unixNano : Int
  year : Nat
  month : Nat
  day : Nat
  hour : Nat
  minute : Nat
  second : Nat

/-- The function `appendInt` of package `time` for a non-negative value: decimal,
zero-padded to `width`. -/
def appendInt (x width : Nat) : String :=
  ⟨List.replicate (width - (Nat.toDigits 10 x).length) '0' ++ Nat.toDigits 10 x⟩

/-- The layout "2006-01-02-15-04" applied by `Time.Format`. -/
def formatMinute (t : Time) : String :=
  appendInt t.year 4 ++ "-" ++ appendInt t.month 2 ++ "-" ++ appendInt t.day 2 ++ "-" ++
    appendInt t.hour 2 ++ "-" ++ appendInt t.minute 2

/-- The layout "2006-01-02 15:04:05" applied by `Time.Format`. -/
def formatSecond (t : Time) : String :=
  appendInt t.year 4 ++ "-" ++ appendInt t.month 2 ++ "-" ++ appendInt t.day 2 ++ " " ++
    appendInt t.hour 2 ++ ":" ++ appendInt t.minute 2 ++ ":" ++ appendInt t.second 2

/-- The file name `saveFile` builds: `fmt.Sprintf("%s-log.md", now.Format(...))`. -/
def fileName (now : Time) : String := formatMinute now ++ "-log.md"

/-- The path `saveFile` writes to: `filepath.Join(dataDir, fileName)`. -/
def filePath (fs : FS) (now : Time) : String := Join fs.dataDir (fileName now)

/-- The method `saveFile(content)`: `none` stands for `log.Fatalf`, which ends the
process. -/
def saveFile (fs : FS) (now : Time) (content : String) : Option FS :=
  fs.WriteFile (fileName now) content now.unixNano

/-! ## Widgets

The list and the text area come from the terminal toolkit.  Their state and the accessors
the controller calls are embedded; what their own `Update`, `SetSize`, `SetItems`, `Reset`
and `SetValue` do to that state is left open (`Toolkit`). -/

/-- The item type handed to the list widget. -/
structure listItem where
  title : String
  filePath : String
  deriving DecidableEq, Repr

/-- The filter states of `list.Model`. -/
inductive FilterState where
  | Unfiltered
  | Filtering
  | FilterApplied
  deriving DecidableEq, Repr

/-- The part of `list.Model` read by `Index`, `VisibleItems` and `SelectedItem`.  Cursor,
page and page size are kept non-negative by the widget. -/
structure ListModel where
  items : List listItem
  filteredItems : List listItem
  filterState : FilterState
  cursor : Nat
  page : Nat
  perPage : Nat
  width : Int
  height : Int
  deriving DecidableEq, Repr

/-- The method `list.Model.Index()`: the cursor position counted over the pages of visible
items. -/
def ListModel.Index (l : ListModel) : Nat := l.page * l.perPage + l.cursor

/-- The method `list.Model.VisibleItems()`: the filtered items while a filter is set. -/
def ListModel.VisibleItems (l : ListModel) : List listItem :=
  if l.filterState ≠ FilterState.Unfiltered then l.filteredItems else l.items

/-- The method `list.Model.SelectedItem()`: the item the widget shows as highlighted. -/
def ListModel.SelectedItem (l : ListModel) : Option listItem :=
  if l.VisibleItems.length ≤ l.Index then none else l.VisibleItems[l.Index]?

/-- The part of `textarea.Model` read by `Value`: the rows of the buffer. -/
structure TextareaModel where
  rows : List String
  width : Int
  deriving DecidableEq, Repr

/-- The method `textarea.Model.Value()`: the rows joined by newlines. -/
def TextareaModel.Value (t : TextareaModel) : String := "\n".intercalate t.rows

/-- A `tea.Msg`: a key press (given by `msg.String()`), a window resize, or any other
message the runtime delivers. -/
inductive Msg where
  | KeyMsg (key : String)
  | WindowSizeMsg (Width Height : Int)
  | other (tag : Nat)
  deriving DecidableEq, Repr

/-- A `tea.Cmd`: `nil`, `tea.Quit`, or a command issued by a widget. -/
inductive Cmd where
  | nil
  | Quit
  | widget (tag : Nat)
  deriving DecidableEq, Repr

/-- The toolkit operations the controller calls on its widgets. -/
structure Toolkit where
  listSetSize : ListModel → Int → Int → ListModel
  listSetItems : ListModel → List listItem → ListModel
  listUpdate : ListModel → Msg → ListModel × Cmd
  textareaReset : TextareaModel → TextareaModel
  textareaSetValue : TextareaModel → String → TextareaModel
  textareaSetWidth : TextareaModel → Int → TextareaModel
  textareaUpdate : TextareaModel → Msg → TextareaModel × Cmd

/-! ## Controller -/

/-- The three modes. -/
inductive appState where
  | listView
  | editView
  | viewerView
  deriving DecidableEq, Repr

/-- The controller state (the renderer, used by `View` only, is left out). -/
structure model where
  list : ListModel
  textarea : TextareaModel
  state : appState
  selected : String
  files : List String
  deriving DecidableEq, Repr

/-- The items built from the entry list, in `main` and in `refreshList`. -/
def makeItems (files : List String) : List listItem :=
  files.map (fun file => { title := Base file, filePath := file })

/-- The method `refreshList()`: the list widget gets the items of the entry list. -/
def refreshList (tk : Toolkit) (m : model) : model :=
  { m with list := tk.listSetItems m.list (makeItems m.files) }

/-- What `Update` returns, together with the file store it leaves. -/
structure Next where
  m : model
  cmd : Cmd
  fs : FS

/-- The second `switch` of `Update`: the message goes to the widget of the current mode. -/
def route (tk : Toolkit) (fs : FS) (m : model) (msg : Msg) : Next :=
  match m.state with
  | .listView =>
    let r := tk.listUpdate m.list msg
    { m := { m with list := r.1 }, cmd := r.2, fs := fs }
  | .editView =>
    let r := tk.textareaUpdate m.textarea msg
    { m := { m with textarea := r.1 }, cmd := r.2, fs := fs }
  | .viewerView => { m := m, cmd := Cmd.nil, fs := fs }

/-- The method `model.Update(msg)`, run on file store `fs` with the clock reading `now`. -/
def Update (tk : Toolkit) (fs : FS) (now : Time) (m : model) (msg : Msg) :
    Except Failure Next :=
  match msg with
  | .KeyMsg k =>
    if k = "ctrl+q" then
      .ok { m := m, cmd := Cmd.Quit, fs := fs }
    else if k = "ctrl+n" then
      if m.state = .listView then
        let ta := tk.textareaSetValue (tk.textareaReset m.textarea)
          (formatSecond now ++ "\n\n")
        .ok (route tk fs { m with textarea := ta, state := .editView } msg)
      else .ok (route tk fs m msg)
    else if k = "ctrl+s" then
      if m.state = .editView then
        match saveFile fs now m.textarea.Value with
        | none => .error Failure.fatal
        | some fs1 =>
          match loadFiles fs1 with
          | .error e => .error e
          | .ok files =>
            .ok (route tk fs1
              (refreshList tk { m with state := .listView, files := files }) msg)
      else .ok (route tk fs m msg)
    else if k = "ctrl+b" then
      if m.state = .editView ∨ m.state = .viewerView then
        .ok (route tk fs { m with state := .listView } msg)
      else .ok (route tk fs m msg)
    else if k = "enter" then
      if m.state = .listView then
        match m.files[m.list.Index]? with
        | none => .error Failure.indexOutOfRange
        | some f => .ok (route tk fs { m with selected := f, state := .viewerView } msg)
      else .ok (route tk fs m msg)
    else .ok (route tk fs m msg)
  | .WindowSizeMsg w h =>
    .ok (route tk fs
      { m with list := tk.listSetSize m.list w (h - 1),
               textarea := tk.textareaSetWidth m.textarea (w - 2) } msg)
  | .other _ => .ok (route tk fs m msg)

/-- The controller run over a sequence of messages, each with the clock reading at its
arrival; the first failure ends the run. -/
def run (tk : Toolkit) : List (Time × Msg) → FS → model → Except Failure (model × FS)
  | [], fs, m => .ok (m, fs)
  | (now, msg) :: rest, fs, m =>
    match Update tk fs now m msg with
    | .ok r => run tk rest r.fs r.m
    | .error e => .error e

/-! ## Specification-side notions -/

/-- A name a directory entry can have: not empty, not "." or "..", without separator. -/
def plainName (name : String) : Bool :=
  decide (name.data ≠ []) && decide (name.data ≠ ['.']) && decide (name.data ≠ ['.', '.']) &&
    decide ('/' ∉ name.data)

mutual
/-- The names of every directory of the subtree are entry names and are distinct. -/
def Node.WellFormed : Node → Bool
  | .file _ _ _ => true
  | .dir _ es => es.WellFormed
  | .link target => target.WellFormed
  | .denied => true
/-- The same for what lies behind a link. -/
def Target.WellFormed : Target → Bool
  | .dir _ _ es => es.WellFormed
  | _ => true
/-- The names of the listing are entry names and are distinct, and so below. -/
def Entries.WellFormed : Entries → Bool
  | .nil => true
  | .cons name n rest =>
    plainName name && !rest.hasName name && n.WellFormed && rest.WellFormed
end

/-- The data directory is named, as `main` leaves it (an empty `WAR_LOG_DATA` is ignored),
and the tree is one a file system can hold. -/
def FS.WellFormed (fs : FS) : Prop := fs.dataDir ≠ "" ∧ fs.root.WellFormed = true

instance (fs : FS) : Decidable fs.WellFormed :=
  inferInstanceAs (Decidable (fs.dataDir ≠ "" ∧ fs.root.WellFormed = true))

mutual
/-- Every `os.Lstat` and every directory read of the walk succeeds: no node is out of
reach and the process may read and search every directory. -/
def Node.Readable (priv : Bool) : Node → Bool
  | .file _ _ _ => true
  | .dir mode es => mayRead priv mode && maySearch priv mode && es.Readable priv
  | .link _ => true
  | .denied => false
/-- All entries of the listing are readable. -/
def Entries.Readable (priv : Bool) : Entries → Bool
  | .nil => true
  | .cons _ n rest => n.Readable priv && rest.Readable priv
end

/-- All file metadata below the data directory can be read by the walk. -/
def FS.Readable (fs : FS) : Prop := fs.root.Readable fs.privileged = true

instance (fs : FS) : Decidable fs.Readable :=
  inferInstanceAs (Decidable (fs.root.Readable fs.privileged = true))

mutual
/-- The paths of the non-directories of the subtree at `path`, links among them; what
lies behind a link is not part of the subtree. -/
def Node.nonDirs (path : String) : Node → List String
  | .file _ _ _ => [path]
  | .dir _ es => es.nonDirs path
  | .link _ => [path]
  | .denied => [path]
/-- The non-directories below the directory `path`. -/
def Entries.nonDirs (path : String) : Entries → List String
  | .nil => []
  | .cons name n rest => n.nonDirs (Join path name) ++ rest.nonDirs path
end

/-- The paths of the non-directory files of the whole subtree. -/
def FS.regularFiles (fs : FS) : List String := fs.root.nonDirs fs.dataDir

/-- The bytes of the file an info describes, through a link if it is one. -/
def Info.content : Info → Option String
  | .file _ c _ => some c
  | .link (Resolved.file _ c _) => some c
  | _ => none

/-- Whether the info is that of a directory. -/
def Info.isDir : Info → Bool
  | .dir _ => true
  | _ => false

/-- The listed paths that are not directories. -/
def nonDirKeys (l : List (String × Info)) : List String :=
  l.filterMap (fun e => if e.2.isDir then none else some e.1)

/-- The modification time read at a path, for paths where one is read. -/
def FS.timeOf (fs : FS) (path : String) : Int := (fs.ModTime path).getD 0

/-- The path ends in ".md". -/
def endsInMd (path : String) : Prop := ['.', 'm', 'd'] <:+ path.data

instance (path : String) : Decidable (endsInMd path) :=
  inferInstanceAs (Decidable (['.', 'm', 'd'] <:+ path.data))

/-- The order of the entry list: modification time, then path. -/
def FS.before (fs : FS) (a b : String) : Prop :=
  ∃ ta tb, fs.ModTime a = some ta ∧ fs.ModTime b = some tb ∧ (ta < tb ∨ (ta = tb ∧ a < b))

/-- The decimal digits of a number, most significant first. -/
def decimalText (n : Nat) : List Char :=
  if n = 0 then ['0'] else (Nat.digits 10 n).reverse.map Nat.digitChar

/-- The decimal digits of a number with zeros in front up to `width` characters. -/
def zeroPadded (width n : Nat) : List Char :=
  List.replicate (width - (decimalText n).length) '0' ++ decimalText n

/-- The text YYYY-MM-DD-hh-mm of a clock reading. -/
def stampText (t : Time) : String :=
  ⟨zeroPadded 4 t.year ++ '-' :: zeroPadded 2 t.month ++ '-' :: zeroPadded 2 t.day ++
    '-' :: zeroPadded 2 t.hour ++ '-' :: zeroPadded 2 t.minute⟩

/-- The two clock readings fall in the same calendar minute. -/
def sameMinute (a b : Time) : Prop :=
  a.year = b.year ∧ a.month = b.month ∧ a.day = b.day ∧ a.hour = b.hour ∧ a.minute = b.minute

instance (a b : Time) : Decidable (sameMinute a b) := by
  unfold sameMinute
  exact inferInstance

/-- The mode the specified state machine reaches from mode `s` on event `e`: the five
edges, and no change otherwise. -/
def specMode (s : appState) (e : Msg) : appState :=
  match s, e with
  | .listView, .KeyMsg k =>
    if k = "ctrl+n" then .editView else if k = "enter" then .viewerView else .listView
  | .editView, .KeyMsg k =>
    if k = "ctrl+s" then .listView else if k = "ctrl+b" then .listView else .editView
  | .viewerView, .KeyMsg k => if k = "ctrl+b" then .listView else .viewerView
  | s, _ => s

/-- A message that neither saves nor cancels: in Edit mode it reaches the text area only. -/
def editing (msg : Msg) : Prop := msg ≠ .KeyMsg "ctrl+s" ∧ msg ≠ .KeyMsg "ctrl+b"

instance (msg : Msg) : Decidable (editing msg) := by
  unfold editing
  exact inferInstance

/-! ### Notions used in the proofs -/

/-- The kept elements of a cleaned path (last one first): none is empty, "." or holds a
separator, and ".." stands only at the front of a relative path. -/
def ValidStack (rooted : Bool) : List (List Char) → Prop
  | [] => True
  | top :: below =>
    ValidStack rooted below ∧ top ≠ [] ∧ top ≠ ['.'] ∧ '/' ∉ top ∧
      (top = ['.', '.'] → rooted = false ∧ ∀ b ∈ below.head?, b = ['.', '.'])

/-- The comparison of `loadFiles` on two modification times that were read. -/
def lessAt (time : String → Int) (a b : String) : Bool :=
  if time a = time b then decide (a.data < b.data) else decide (time a < time b)

/-- The inner loop of the insertion sort for a comparison that does not fail. -/
def siftPure {α : Type} (lt : α → α → Bool) (x : α) : List α → List α
  | [] => [x]
  | y :: rev => if lt x y then y :: siftPure lt x rev else x :: y :: rev

/-- The insertion sort for a comparison that does not fail. -/
def sortPure {α : Type} (lt : α → α → Bool) (xs : List α) : List α :=
  (xs.foldl (fun rev x => siftPure lt x rev) []).reverse

/-! ## Concrete inputs

A plain toolkit and a few states on which the controller is run.  Permission bits: 493 is
0755, 420 is 0644, 292 is 0444; the mask 18 is 022, the mask 146 is 0222. -/

/-- A toolkit in which the list moves its cursor on "down" and "up" and the text area
appends the typed key to its last row. -/
def plainToolkit : Toolkit where
  listSetSize l w h := { l with width := w, height := h }
  listSetItems l items :=
    if l.filterState ≠ FilterState.Unfiltered then { l with items := items, filteredItems := [] }
    else { l with items := items }
  listUpdate l msg :=
    if msg = .KeyMsg "down" then
      (if l.cursor + 1 < l.VisibleItems.length then { l with cursor := l.cursor + 1 } else l,
        Cmd.nil)
    else if msg = .KeyMsg "up" then ({ l with cursor := l.cursor - 1 }, Cmd.nil)
    else (l, Cmd.nil)
  textareaReset t := { t with rows := [""] }
  textareaSetValue t v := { t with rows := [v] }
  textareaSetWidth t w := { t with width := w }
  textareaUpdate t msg :=
    match msg with
    | .KeyMsg k => ({ t with rows := t.rows.dropLast ++ [t.rows.getLastD "" ++ k] }, Cmd.nil)
    | _ => (t, Cmd.nil)

/-- A data directory with two entries, a sub-directory and a text file. -/
def sampleFS : FS :=
  { dataDir := "~/.warlog",
    root := .dir 493 (.cons "a-log.md" (.file 20 "alpha" 420)
      (.cons "archive" (.dir 493 (.cons "old.md" (.file 5 "old" 420) .nil))
      (.cons "b-log.md" (.file 20 "beta" 420)
      (.cons "notes.txt" (.file 1 "" 420) .nil)))),
    umask := 18, privileged := false }

/-- The entry list of `sampleFS`. -/
def sampleFiles : List String :=
  ["~/.warlog/archive/old.md", "~/.warlog/a-log.md", "~/.warlog/b-log.md"]

/-- A data directory in which the name the next save would use is taken by a directory. -/
def blockedFS : FS :=
  { dataDir := "~/.warlog",
    root := .dir 493 (.cons "2024-03-07-09-05-log.md" (.dir 493 .nil) .nil),
    umask := 18, privileged := false }

/-- A data directory with a regular file and a dangling symbolic link, both named as
entries: `os.Lstat` succeeds on every node, `os.Stat` fails on the link. -/
def danglingFS : FS :=
  { dataDir := "~/.warlog",
    root := .dir 493 (.cons "a-log.md" (.file 20 "alpha" 420)
      (.cons "b-log.md" (.link .absent) .nil)),
    umask := 18, privileged := false }

/-- An empty data directory. -/
def emptyFS : FS :=
  { dataDir := "~/.warlog", root := .dir 493 .nil, umask := 18, privileged := false }

/-- A clock reading: 2024-03-07 09:05:59 local time. -/
def sampleTime : Time :=
  { unixNano := 1709802359000000000, year := 2024, month := 3, day := 7,
    hour := 9, minute := 5, second := 59 }

/-- A second clock reading in the same minute. -/
def laterTime : Time :=
  { unixNano := 1709802301000000000, year := 2024, month := 3, day := 7,
    hour := 9, minute := 5, second := 1 }

/-- The file store `sampleFS` after the entry "entry" was saved at `sampleTime`. -/
def savedFS : FS :=
  { dataDir := "~/.warlog",
    root := .dir 493 (.cons "2024-03-07-09-05-log.md" (.file 1709802359000000000 "entry" 420)
      (.cons "a-log.md" (.file 20 "alpha" 420)
      (.cons "archive" (.dir 493 (.cons "old.md" (.file 5 "old" 420) .nil))
      (.cons "b-log.md" (.file 20 "beta" 420)
      (.cons "notes.txt" (.file 1 "" 420) .nil))))),
    umask := 18, privileged := false }

/-- The file store `sampleFS` after the entry "first" was saved at `laterTime`. -/
def firstFS : FS :=
  { dataDir := "~/.warlog",
    root := .dir 493 (.cons "2024-03-07-09-05-log.md" (.file 1709802301000000000 "first" 420)
      (.cons "a-log.md" (.file 20 "alpha" 420)
      (.cons "archive" (.dir 493 (.cons "old.md" (.file 5 "old" 420) .nil))
      (.cons "b-log.md" (.file 20 "beta" 420)
      (.cons "notes.txt" (.file 1 "" 420) .nil))))),
    umask := 18, privileged := false }

/-- The file store `firstFS` after the entry "second" was saved at `sampleTime`. -/
def secondFS : FS :=
  { dataDir := "~/.warlog",
    root := .dir 493 (.cons "2024-03-07-09-05-log.md" (.file 1709802359000000000 "second" 420)
      (.cons "a-log.md" (.file 20 "alpha" 420)
      (.cons "archive" (.dir 493 (.cons "old.md" (.file 5 "old" 420) .nil))
      (.cons "b-log.md" (.file 20 "beta" 420)
      (.cons "notes.txt" (.file 1 "" 420) .nil))))),
    umask := 18, privileged := false }

/-- The entry list of `savedFS`. -/
def savedFiles : List String :=
  ["~/.warlog/archive/old.md", "~/.warlog/a-log.md", "~/.warlog/b-log.md",
    "~/.warlog/2024-03-07-09-05-log.md"]

/-- The list widget as `main` builds it over the entry list. -/
def listOf (files : List String) : ListModel :=
  { items := makeItems files, filteredItems := [], filterState := FilterState.Unfiltered,
    cursor := 0, page := 0, perPage := 10, width := 0, height := 10 }

/-- The state `main` starts the program with when `loadFiles` has returned `files`. -/
def initialModel (files : List String) : model :=
  { list := listOf files, textarea := { rows := [""], width := 0 },
    state := .listView, selected := "", files := files }

/-- An Edit-mode state whose draft holds the text "note". -/
def draftModel : model :=
  { initialModel sampleFiles with
    textarea := { rows := ["note"], width := 0 }, state := .editView }

/-- A List-mode state in which the filter "b" is applied: one visible item, highlighted. -/
def filteredModel : model :=
  { initialModel sampleFiles with
    list := { listOf sampleFiles with
      filteredItems := [{ title := "b-log.md", filePath := "~/.warlog/b-log.md" }],
      filterState := FilterState.FilterApplied } }

/-! ## Lemmas: `filepath.Clean` and `filepath.Join` -/

theorem splitSep_ne_nil (l : List Char) : splitSep l ≠ [] := by
  cases l with
  | nil => simp [splitSep]
  | cons c cs =>
    unfold splitSep
    split
    · simp
    · split <;> simp

theorem splitSep_cons (c : Char) (cs : List Char) (hc : c ≠ '/') :
    splitSep (c :: cs) =
      match splitSep cs with
      | [] => [[c]]
      | e :: es => (c :: e) :: es := by
  simp [splitSep, hc]

theorem splitSep_append (a b : List Char) :
    splitSep (a ++ '/' :: b) = splitSep a ++ splitSep b := by
  induction a with
  | nil => simp [splitSep]
  | cons c a ih =>
    by_cases hc : c = '/'
    · subst hc
      simp [splitSep, ih]
    · rw [List.cons_append, splitSep_cons c _ hc, splitSep_cons c a hc, ih]
      cases hs : splitSep a with
      | nil => exact absurd hs (splitSep_ne_nil a)
      | cons e es => rfl

theorem splitSep_of_noSep (n : List Char) (h : '/' ∉ n) : splitSep n = [n] := by
  induction n with
  | nil => rfl
  | cons c n ih =>
    have hc : c ≠ '/' := fun hc => h (hc ▸ List.mem_cons_self _ _)
    have hn : '/' ∉ n := fun hm => h (List.mem_cons_of_mem _ hm)
    simp [splitSep, hc, ih hn]

theorem splitSep_noSep (l e : List Char) (he : e ∈ splitSep l) : '/' ∉ e := by
  induction l generalizing e with
  | nil =>
    simp only [splitSep, List.mem_singleton] at he
    subst he
    simp
  | cons c l ih =>
    unfold splitSep at he
    by_cases hc : c = '/'
    · simp only [hc, if_true, List.mem_cons] at he
      rcases he with rfl | he
      · simp
      · exact ih e he
    · simp only [hc, if_false] at he
      cases hs : splitSep l with
      | nil => exact absurd hs (splitSep_ne_nil l)
      | cons f fs =>
        rw [hs] at he ih
        simp only [List.mem_cons] at he
        rcases he with rfl | he
        · intro hm
          rcases List.mem_cons.1 hm with h1 | h1
          · exact hc h1.symm
          · exact ih f (List.mem_cons_self _ _) h1
        · exact ih e (List.mem_cons_of_mem _ he)

theorem splitSep_joinSep (comps : List (List Char)) (hne : comps ≠ [])
    (h : ∀ e ∈ comps, '/' ∉ e) : splitSep (joinSep comps) = comps := by
  induction comps with
  | nil => exact absurd rfl hne
  | cons e rest ih =>
    cases rest with
    | nil => exact splitSep_of_noSep e (h e (List.mem_cons_self _ _))
    | cons f rest =>
      simp only [joinSep]
      rw [splitSep_append, splitSep_of_noSep e (h e (List.mem_cons_self _ _)),
        ih (by simp) (fun x hx => h x (List.mem_cons_of_mem _ hx))]
      rfl

theorem joinSep_head (e : List Char) (rest : List (List Char)) (he : e ≠ []) :
    (joinSep (e :: rest)).head? = e.head? := by
  cases rest with
  | nil => rfl
  | cons f rest =>
    cases e with
    | nil => exact absurd rfl he
    | cons c e => rfl

theorem ValidStack.mem {rooted : Bool} : ∀ {stack : List (List Char)},
    ValidStack rooted stack → ∀ e ∈ stack, e ≠ [] ∧ '/' ∉ e
  | [], _, e, he => by simp at he
  | top :: below, hv, e, he => by
    rcases List.mem_cons.1 he with rfl | he
    · exact ⟨hv.2.1, hv.2.2.2.1⟩
    · exact ValidStack.mem hv.1 e he

theorem cleanStep_valid (rooted : Bool) (stack : List (List Char)) (elem : List Char)
    (hv : ValidStack rooted stack) (he : '/' ∉ elem) :
    ValidStack rooted (cleanStep rooted stack elem) := by
  unfold cleanStep
  by_cases h1 : elem = []
  · simp only [h1, if_true]
    exact hv
  by_cases h2 : elem = ['.']
  · simp only [h1, h2, if_true, if_false]
    exact hv
  by_cases h3 : elem = ['.', '.']
  · simp only [h1, h2, h3, if_true, if_false]
    cases stack with
    | nil =>
      cases rooted
      · simp [ValidStack]
      · simp [ValidStack]
    | cons top below =>
      by_cases h4 : top = ['.', '.']
      · simp only [h4, if_true]
        refine ⟨h4 ▸ hv, by simp, by simp, by simp, fun _ => ⟨?_, by simp⟩⟩
        exact (hv.2.2.2.2 h4).1
      · simp only [h4, if_false]
        exact hv.1
  · simp only [h1, h2, h3, if_false]
    exact ⟨hv, h1, h2, he, fun h => absurd h h3⟩

theorem foldl_cleanStep_valid (rooted : Bool) (elems : List (List Char))
    (stack : List (List Char)) (hv : ValidStack rooted stack) (he : ∀ e ∈ elems, '/' ∉ e) :
    ValidStack rooted (elems.foldl (cleanStep rooted) stack) := by
  induction elems generalizing stack with
  | nil => exact hv
  | cons e elems ih =>
    simp only [List.foldl_cons]
    exact ih _ (cleanStep_valid rooted stack e hv (he e (List.mem_cons_self _ _)))
      (fun x hx => he x (List.mem_cons_of_mem _ hx))

theorem cleanStack_valid (path : List Char) : ValidStack (rootedPath path) (cleanStack path) :=
  foldl_cleanStep_valid _ _ [] trivial (fun e he => splitSep_noSep path e he)

/-- Cleaning the kept elements again keeps them all. -/
theorem foldl_cleanStep_reverse (rooted : Bool) : ∀ (stack : List (List Char)),
    ValidStack rooted stack → stack.reverse.foldl (cleanStep rooted) [] = stack
  | [], _ => rfl
  | top :: below, hv => by
    rw [List.reverse_cons, List.foldl_append, foldl_cleanStep_reverse rooted below hv.1]
    simp only [List.foldl_cons, List.foldl_nil]
    unfold cleanStep
    simp only [hv.2.1, hv.2.2.1, if_false]
    by_cases h3 : top = ['.', '.']
    · obtain ⟨hr, hb⟩ := hv.2.2.2.2 h3
      simp only [h3, if_true]
      cases below with
      | nil => simp [hr]
      | cons b below =>
        have := hb b (by simp)
        simp [this]
    · simp only [h3, if_false]

theorem cleanStack_render (rooted : Bool) (stack : List (List Char))
    (hv : ValidStack rooted stack) (hne : stack ≠ []) :
    rootedPath (render rooted stack) = rooted ∧ cleanStack (render rooted stack) = stack := by
  have hcomps : ∀ e ∈ stack.reverse, '/' ∉ e := fun e he =>
    (ValidStack.mem hv e (List.mem_reverse.1 he)).2
  have hrne : stack.reverse ≠ [] := by simpa using hne
  have hsplit := splitSep_joinSep stack.reverse hrne hcomps
  have hfold := foldl_cleanStep_reverse rooted stack hv
  cases rooted with
  | true =>
    have hr : rootedPath (render true stack) = true := by simp [render, rootedPath]
    refine ⟨hr, ?_⟩
    unfold cleanStack
    rw [hr]
    simp only [render, if_true, splitSep, hsplit, List.foldl_cons]
    simpa [cleanStep] using hfold
  | false =>
    have hrender : render false stack = joinSep stack.reverse := by simp [render, hne]
    have hr : rootedPath (render false stack) = false := by
      rw [hrender]
      cases hrev : stack.reverse with
      | nil => exact absurd hrev hrne
      | cons e rest =>
        have hmem : e ∈ stack := List.mem_reverse.1 (hrev ▸ List.mem_cons_self _ _)
        have hprop := ValidStack.mem hv e hmem
        unfold rootedPath
        rw [joinSep_head e rest hprop.1]
        cases e with
        | nil => exact absurd rfl hprop.1
        | cons c e =>
          have hc : c ≠ '/' := fun hc => hprop.2 (hc ▸ List.mem_cons_self _ _)
          simp [hc]
    refine ⟨hr, ?_⟩
    unfold cleanStack
    rw [hr, hrender, hsplit]
    exact hfold

theorem cleanStep_plain (rooted : Bool) (stack : List (List Char)) (name : String)
    (h : plainName name = true) : cleanStep rooted stack name.data = name.data :: stack := by
  simp only [plainName, Bool.and_eq_true, decide_eq_true_eq] at h
  simp [cleanStep, h.1.1.1, h.1.1.2, h.1.2]

theorem plainName_noSep (name : String) (h : plainName name = true) : '/' ∉ name.data := by
  simp only [plainName, Bool.and_eq_true, decide_eq_true_eq] at h
  exact h.2

theorem plainName_valid (rooted : Bool) (stack : List (List Char)) (name : String)
    (h : plainName name = true) (hv : ValidStack rooted stack) :
    ValidStack rooted (name.data :: stack) := by
  have h2 := h
  simp only [plainName, Bool.and_eq_true, decide_eq_true_eq] at h2
  exact ⟨hv, h2.1.1.1, h2.1.1.2, h2.2, fun h3 => absurd h3 h2.1.2⟩

/-- The path `filepath.Join(dir, name)` keeps the elements of `dir` and, last, `name`. -/
theorem cleanStack_Join (dir name : String) (h : plainName name = true) :
    cleanStack (Join dir name).data = name.data :: cleanStack dir.data := by
  have hsep := plainName_noSep name h
  by_cases hd : dir = ""
  · subst hd
    have hn : name ≠ "" := by
      intro hn
      subst hn
      simp [plainName] at h
    have hroot : rootedPath name.data = false := by
      unfold rootedPath
      cases hdata : name.data with
      | nil => simp
      | cons c cs =>
        have hc : c ≠ '/' := fun hc => hsep (hdata ▸ hc ▸ List.mem_cons_self _ _)
        simp [hc]
    have hstack : cleanStack name.data = [name.data] := by
      unfold cleanStack
      rw [splitSep_of_noSep _ hsep]
      simp only [List.foldl_cons, List.foldl_nil]
      exact cleanStep_plain _ [] name h
    have hempty : cleanStack ("" : String).data = [] := by decide
    simp only [Join, ne_eq, not_true_eq_false, if_false, hn, not_false_eq_true, if_true, Clean,
      hroot, hstack, hempty]
    exact (cleanStack_render false [name.data] (plainName_valid false [] name h trivial)
      (by simp)).2
  · have hdata : dir.data ≠ [] := fun hnil => hd (String.ext_iff.2 (by simpa using hnil))
    have hroot : rootedPath (dir.data ++ '/' :: name.data) = rootedPath dir.data := by
      unfold rootedPath
      cases hdd : dir.data with
      | nil => exact absurd hdd hdata
      | cons c cs => rfl
    have hstack : cleanStack (dir.data ++ '/' :: name.data) =
        name.data :: cleanStack dir.data := by
      unfold cleanStack
      rw [hroot, splitSep_append, splitSep_of_noSep _ hsep, List.foldl_append]
      simp only [List.foldl_cons, List.foldl_nil]
      exact cleanStep_plain _ _ name h
    have hcat : (dir ++ "/" ++ name).data = dir.data ++ '/' :: name.data := by
      simp [String.data_append]
    simp only [Join, ne_eq, hd, not_false_eq_true, if_true, Clean, hcat, hroot, hstack]
    exact (cleanStack_render _ _ (plainName_valid _ _ name h (cleanStack_valid dir.data))
      (by simp)).2

theorem Join_ne_self (dir name : String) (h : plainName name = true) : Join dir name ≠ dir := by
  intro heq
  have := cleanStack_Join dir name h
  rw [heq] at this
  have hl := congrArg List.length this
  simp at hl


/-- The join cleans its result: a trailing separator, "." and ".." leave no trace. -/
theorem Join_cleans :
    Join "data/" "a.md" = "data/a.md" ∧ Join "." "a.md" = "a.md" ∧
    Join "/" "a.md" = "/a.md" ∧ Join "a/../.." "a.md" = "../a.md" ∧
    Join "data//sub/" "b.md" = "data/sub/b.md" ∧ Join "" "a.md" = "a.md" ∧
    Join "data" "" = "data" := by
  decide
/-! ## Lemmas: the paths of the tree -/

theorem suffix_last_eq {α : Type} (up1 up2 stack : List α) (a b : α)
    (h : up1 ++ a :: stack = up2 ++ b :: stack) : a = b := by
  have h2 : (up1 ++ [a]) ++ stack = (up2 ++ [b]) ++ stack := by simpa using h
  have h3 := List.append_cancel_right h2
  have h4 := congrArg List.getLast? h3
  simpa using h4

theorem suffix_longer {α : Type} (up stack : List α) (a : α) : up ++ a :: stack ≠ stack := by
  intro h
  have := congrArg List.length h
  simp at this
  omega

mutual
theorem Node.ls_stack : ∀ (x : Node) (priv vis : Bool) (p q : String) (i : Info),
    x.WellFormed = true → (q, i) ∈ x.ls priv vis p →
    ∃ up, cleanStack q.data = up ++ cleanStack p.data
  | .file t c mode, priv, vis, p, q, i, _, h => by
    simp only [Node.ls, List.mem_singleton, Prod.mk.injEq] at h
    exact ⟨[], by rw [h.1]; rfl⟩
  | .denied, priv, vis, p, q, i, _, h => by
    simp only [Node.ls, List.mem_singleton, Prod.mk.injEq] at h
    exact ⟨[], by rw [h.1]; rfl⟩
  | .dir mode es, priv, vis, p, q, i, hwf, h => by
    simp only [Node.WellFormed] at hwf
    simp only [Node.ls, List.mem_cons, Prod.mk.injEq] at h
    rcases h with h | h
    · exact ⟨[], by rw [h.1]; rfl⟩
    · obtain ⟨n, up, _, hs⟩ := Entries.children_stack es priv _ p q i hwf h
      exact ⟨up ++ [n.data], by simp [hs]⟩
  | .link target, priv, vis, p, q, i, hwf, h => by
    simp only [Node.WellFormed] at hwf
    simp only [Node.ls, List.mem_cons, Prod.mk.injEq] at h
    rcases h with h | h
    · exact ⟨[], by rw [h.1]; rfl⟩
    · obtain ⟨n, up, hs⟩ := Target.behind_stack target priv _ p q i hwf h
      exact ⟨up ++ [n], by simp [hs]⟩
theorem Target.behind_stack : ∀ (x : Target) (priv vis : Bool) (p q : String) (i : Info),
    x.WellFormed = true → (q, i) ∈ x.ls priv vis p →
    ∃ n up, cleanStack q.data = up ++ n :: cleanStack p.data
  | .file t c mode, priv, vis, p, q, i, _, h => by simp [Target.ls] at h
  | .absent, priv, vis, p, q, i, _, h => by simp [Target.ls] at h
  | .unreachable, priv, vis, p, q, i, _, h => by simp [Target.ls] at h
  | .dir t mode es, priv, vis, p, q, i, hwf, h => by
    simp only [Target.WellFormed] at hwf
    simp only [Target.ls] at h
    obtain ⟨n, up, _, hs⟩ := Entries.children_stack es priv _ p q i hwf h
    exact ⟨n.data, up, hs⟩
theorem Entries.children_stack : ∀ (es : Entries) (priv vis : Bool) (p q : String) (i : Info),
    es.WellFormed = true → (q, i) ∈ es.ls priv vis p →
    ∃ n up, es.hasName n = true ∧ cleanStack q.data = up ++ n.data :: cleanStack p.data
  | .nil, priv, vis, p, q, i, _, h => by simp [Entries.ls] at h
  | .cons name x rest, priv, vis, p, q, i, hwf, h => by
    simp only [Entries.WellFormed, Bool.and_eq_true] at hwf
    simp only [Entries.ls, List.mem_append] at h
    rcases h with h | h
    · obtain ⟨up, hs⟩ := Node.ls_stack x priv vis _ q i hwf.1.2 h
      rw [cleanStack_Join p name hwf.1.1.1] at hs
      exact ⟨name, up, by simp [Entries.hasName], hs⟩
    · obtain ⟨n, up, h1, h2⟩ := Entries.children_stack rest priv vis p q i hwf.2 h
      exact ⟨n, up, by simp [Entries.hasName, h1], h2⟩
end

/-- No path below a directory is the path of the directory. -/
theorem Entries.not_mem_self (es : Entries) (priv vis : Bool) (p : String)
    (hwf : es.WellFormed = true) : p ∉ (es.ls priv vis p).map Prod.fst := by
  intro hp
  obtain ⟨⟨q, i⟩, hm, hq⟩ := List.mem_map.1 hp
  simp only at hq
  subst hq
  obtain ⟨n, up, _, hs⟩ := Entries.children_stack es priv vis q q i hwf hm
  exact suffix_longer _ _ _ hs.symm

/-- A path below the entry `n` of a directory is not the path of another entry `name`. -/
theorem Node.not_mem_sibling (x : Node) (priv vis : Bool) (p n name : String)
    (hwf : x.WellFormed = true) (hn : plainName n = true) (hname : plainName name = true)
    (hne : n ≠ name) : Join p name ∉ (x.ls priv vis (Join p n)).map Prod.fst := by
  intro hp
  obtain ⟨⟨q, i⟩, hm, hq⟩ := List.mem_map.1 hp
  simp only at hq
  subst hq
  obtain ⟨up, hs⟩ := Node.ls_stack x priv vis _ _ i hwf hm
  rw [cleanStack_Join p name hname, cleanStack_Join p n hn] at hs
  have h1 : ([] : List (List Char)) ++ name.data :: cleanStack p.data =
      up ++ n.data :: cleanStack p.data := by simpa using hs
  have h2 := suffix_last_eq _ _ _ _ _ h1
  exact hne (String.ext_iff.2 h2.symm)

theorem Entries.plain_of_hasName : ∀ (es : Entries) (n : String),
    es.WellFormed = true → es.hasName n = true → plainName n = true
  | .nil, n, _, h => by simp [Entries.hasName] at h
  | .cons name x rest, n, hwf, h => by
    simp only [Entries.WellFormed, Bool.and_eq_true] at hwf
    simp only [Entries.hasName, Bool.or_eq_true, decide_eq_true_eq] at h
    rcases h with h | h
    · exact h ▸ hwf.1.1.1
    · exact Entries.plain_of_hasName rest n hwf.2 h

mutual
/-- In a well-formed tree no path is listed twice. -/
theorem Node.ls_nodup : ∀ (x : Node) (priv vis : Bool) (p : String), x.WellFormed = true →
    ((x.ls priv vis p).map Prod.fst).Nodup
  | .file t c mode, priv, vis, p, _ => by simp [Node.ls]
  | .denied, priv, vis, p, _ => by simp [Node.ls]
  | .dir mode es, priv, vis, p, h => by
    simp only [Node.WellFormed] at h
    simp only [Node.ls, List.map_cons, List.nodup_cons]
    exact ⟨Entries.not_mem_self es priv _ p h, Entries.children_nodup es priv _ p h⟩
  | .link target, priv, vis, p, h => by
    simp only [Node.WellFormed] at h
    simp only [Node.ls, List.map_cons, List.nodup_cons]
    refine ⟨?_, Target.behind_nodup target priv vis p h⟩
    intro hp
    obtain ⟨⟨q, i⟩, hm, hq⟩ := List.mem_map.1 hp
    simp only at hq
    subst hq
    obtain ⟨n, up, hs⟩ := Target.behind_stack target priv vis q q i h hm
    exact suffix_longer _ _ _ hs.symm
theorem Target.behind_nodup : ∀ (x : Target) (priv vis : Bool) (p : String),
    x.WellFormed = true → ((x.ls priv vis p).map Prod.fst).Nodup
  | .file t c mode, priv, vis, p, _ => by simp [Target.ls]
  | .absent, priv, vis, p, _ => by simp [Target.ls]
  | .unreachable, priv, vis, p, _ => by simp [Target.ls]
  | .dir t mode es, priv, vis, p, h => by
    simp only [Target.WellFormed] at h
    simp only [Target.ls]
    exact Entries.children_nodup es priv _ p h
theorem Entries.children_nodup : ∀ (es : Entries) (priv vis : Bool) (p : String),
    es.WellFormed = true → ((es.ls priv vis p).map Prod.fst).Nodup
  | .nil, priv, vis, p, _ => by simp [Entries.ls]
  | .cons name x rest, priv, vis, p, h => by
    simp only [Entries.WellFormed, Bool.and_eq_true, Bool.not_eq_true'] at h
    obtain ⟨⟨⟨hplain, hfresh⟩, hx⟩, hrest⟩ := h
    simp only [Entries.ls, List.map_append]
    rw [List.nodup_append]
    refine ⟨Node.ls_nodup x priv vis _ hx, Entries.children_nodup rest priv vis p hrest, ?_⟩
    intro q hq1 hq2
    obtain ⟨⟨q1, i1⟩, hm1, rfl⟩ := List.mem_map.1 hq1
    obtain ⟨⟨q2, i2⟩, hm2, hq⟩ := List.mem_map.1 hq2
    simp only at hq
    subst hq
    obtain ⟨up1, hs1⟩ := Node.ls_stack x priv vis _ _ _ hx hm1
    rw [cleanStack_Join p name hplain] at hs1
    obtain ⟨n, up2, hn, hs2⟩ := Entries.children_stack rest priv vis p _ _ hrest hm2
    rw [hs1] at hs2
    have := suffix_last_eq _ _ _ _ _ hs2
    have hnn : name = n := String.ext_iff.2 this
    subst hnn
    rw [hn] at hfresh
    exact Bool.noConfusion hfresh
end

theorem lookup_of_mem_nodup {β : Type} : ∀ (l : List (String × β)) (k : String) (v : β),
    (k, v) ∈ l → (l.map Prod.fst).Nodup → l.lookup k = some v
  | [], _, _, h, _ => by simp at h
  | (k1, v1) :: l, k, v, h, hnd => by
    simp only [List.map_cons, List.nodup_cons] at hnd
    rcases List.mem_cons.1 h with h1 | h2
    · simp only [Prod.mk.injEq] at h1
      obtain ⟨rfl, rfl⟩ := h1
      simp [List.lookup]
    · have hne : k ≠ k1 := by
        intro hk
        exact hnd.1 (List.mem_map.2 ⟨(k, v), h2, hk⟩)
      rw [List.lookup_cons]
      have : (k == k1) = false := by simpa using hne
      rw [this]
      exact lookup_of_mem_nodup l k v h2 hnd.2

theorem lookup_eq_none_of_not_mem {β : Type} (l : List (String × β)) (k : String)
    (h : k ∉ l.map Prod.fst) : l.lookup k = none := by
  rw [List.lookup_eq_none_iff]
  rintro ⟨k1, v⟩ hm
  simp only [bne_iff_ne, ne_eq]
  rintro rfl
  exact h (List.mem_map.2 ⟨(k, v), hm, rfl⟩)

/-! ## Lemmas: writing and reading back -/

theorem contentAt_eq (fs : FS) (path : String) :
    fs.contentAt path = (fs.lstat path).bind Info.content := by
  unfold FS.contentAt
  cases h : fs.lstat path with
  | none => rfl
  | some i =>
    cases i with
    | file t c mode => rfl
    | dir mode => rfl
    | denied => rfl
    | link r => cases r <;> rfl

theorem ReadFile_content (fs : FS) (path c c1 : String) (i : Info)
    (h : fs.lstat path = some i) (hc : i.content = some c) (hr : fs.ReadFile path = some c1) :
    c1 = c := by
  unfold FS.ReadFile at hr
  rw [h] at hr
  cases i with
  | file t c0 mode =>
    simp only [Info.content, Option.some.injEq] at hc
    subst hc
    by_cases hm : mayRead fs.privileged mode = true <;> simp [hm] at hr
    exact hr.symm
  | dir mode => simp at hr
  | denied => simp at hr
  | link r =>
    cases r with
    | file t c0 mode =>
      simp only [Info.content, Option.some.injEq] at hc
      subst hc
      by_cases hm : mayRead fs.privileged mode = true <;> simp [hm] at hr
      exact hr.symm
    | dir t mode => simp at hr
    | absent => simp at hr
    | unreachable => simp at hr

/-- A node that was written is a single path of the listing, before and after, and
afterwards leads to the new content. -/
theorem Node.written_ls (x y : Node) (priv : Bool) (umask : Nat) (t : Int) (c : String)
    (h : x.written priv umask t c = some y) :
    y.WellFormed = true ∧
    (∀ vis path, ∃ i0, x.ls priv vis path = [(path, i0)]) ∧
    (∀ vis path, ∃ i1, y.ls priv vis path = [(path, i1)]) ∧
    ∀ path, ∃ i, y.ls priv true path = [(path, i)] ∧ i.content = some c := by
  cases x with
  | file t0 c0 mode =>
    simp only [Node.written] at h
    by_cases hm : mayWrite priv mode = true
    · simp only [hm, if_true, Option.some.injEq] at h
      subst h
      exact ⟨rfl, fun _ _ => ⟨_, rfl⟩, fun _ _ => ⟨_, rfl⟩, fun _ => ⟨_, rfl, rfl⟩⟩
    · simp [hm] at h
  | dir mode es => simp [Node.written] at h
  | denied => simp [Node.written] at h
  | link target =>
    cases target with
    | file t0 c0 mode =>
      simp only [Node.written] at h
      by_cases hm : mayWrite priv mode = true
      · simp only [hm, if_true, Option.some.injEq] at h
        subst h
        exact ⟨rfl, fun _ _ => ⟨_, rfl⟩, fun _ _ => ⟨_, rfl⟩, fun _ => ⟨_, rfl, rfl⟩⟩
      · simp [hm] at h
    | dir t0 mode es => simp [Node.written] at h
    | absent =>
      simp only [Node.written, Option.some.injEq] at h
      subst h
      exact ⟨rfl, fun _ _ => ⟨_, rfl⟩, fun _ _ => ⟨_, rfl⟩, fun _ => ⟨_, rfl, rfl⟩⟩
    | unreachable => simp [Node.written] at h

theorem lookup_single_ne {β : Type} (k q : String) (v : β) (h : q ≠ k) :
    List.lookup q [(k, v)] = none := by
  have : (q == k) = false := by simpa using h
  simp [List.lookup, this]

theorem Entries.overwrite_spec : ∀ (es es1 : Entries) (priv : Bool) (umask : Nat)
    (p name : String) (t : Int) (c : String),
    es.WellFormed = true → plainName name = true →
    es.overwrite priv umask name t c = some es1 →
    es1.WellFormed = true ∧ (∀ m, es1.hasName m = es.hasName m) ∧
    (∃ i, (es1.ls priv true p).lookup (Join p name) = some i ∧ i.content = some c) ∧
    ∀ vis q, q ≠ Join p name → (es1.ls priv vis p).lookup q = (es.ls priv vis p).lookup q
  | .nil, es1, priv, umask, p, name, t, c, _, _, h => by simp [Entries.overwrite] at h
  | .cons n x rest, es1, priv, umask, p, name, t, c, hwf, hname, h => by
    have hwf0 := hwf
    simp only [Entries.WellFormed, Bool.and_eq_true, Bool.not_eq_true'] at hwf
    obtain ⟨⟨⟨hplain, hfresh⟩, hx⟩, hrest⟩ := hwf
    unfold Entries.overwrite at h
    by_cases h1 : n = name
    · subst h1
      simp only [if_true, Option.map_eq_some'] at h
      obtain ⟨y, hy, rfl⟩ := h
      obtain ⟨hywf, hx0, hy1, hyc⟩ := Node.written_ls x y priv umask t c hy
      refine ⟨?_, fun m => by simp [Entries.hasName], ?_, ?_⟩
      · simp [Entries.WellFormed, hplain, hfresh, hywf, hrest]
      · obtain ⟨i, hi, hic⟩ := hyc (Join p n)
        refine ⟨i, ?_, hic⟩
        simp [Entries.ls, hi, List.lookup]
      · intro vis q hq
        obtain ⟨i0, hi0⟩ := hx0 vis (Join p n)
        obtain ⟨i1, hi1⟩ := hy1 vis (Join p n)
        simp only [Entries.ls, hi0, hi1, List.lookup_append, lookup_single_ne _ _ _ hq]
    · simp only [h1, if_false, Option.map_eq_some'] at h
      obtain ⟨r, hr, rfl⟩ := h
      obtain ⟨hrwf, hrn, ⟨i, hi, hic⟩, hframe⟩ :=
        Entries.overwrite_spec rest r priv umask p name t c hrest hname hr
      refine ⟨?_, fun m => by simp [Entries.hasName, hrn m], ?_, ?_⟩
      · simp [Entries.WellFormed, hplain, hx, hrwf, hrn n, hfresh]
      · refine ⟨i, ?_, hic⟩
        simp only [Entries.ls, List.lookup_append]
        rw [lookup_eq_none_of_not_mem _ _
          (Node.not_mem_sibling x priv true p n name hx hplain hname h1)]
        simpa using hi
      · intro vis q hq
        simp only [Entries.ls, List.lookup_append, hframe vis q hq]

theorem Entries.hasName_insert : ∀ (es : Entries) (name m : String) (x : Node),
    (es.insert name x).hasName m = (decide (name = m) || es.hasName m)
  | .nil, name, m, x => by simp [Entries.insert, Entries.hasName]
  | .cons n y rest, name, m, x => by
    unfold Entries.insert
    by_cases h : name.data < n.data
    · simp [h, Entries.hasName]
    · simp only [h, if_false, Entries.hasName, Entries.hasName_insert rest name m x]
      cases decide (n = m) <;> cases decide (name = m) <;> simp

theorem Entries.insert_spec : ∀ (es : Entries) (priv : Bool) (p name : String) (t : Int)
    (c : String) (mode : Nat),
    es.WellFormed = true → plainName name = true → es.hasName name = false →
    (es.insert name (.file t c mode)).WellFormed = true ∧
    ((es.insert name (.file t c mode)).ls priv true p).lookup (Join p name) =
      some (Info.file t c mode) ∧
    ∀ vis q, q ≠ Join p name →
      ((es.insert name (.file t c mode)).ls priv vis p).lookup q = (es.ls priv vis p).lookup q
  | .nil, priv, p, name, t, c, mode, _, hname, _ => by
    refine ⟨by simp [Entries.insert, Entries.WellFormed, Entries.hasName, Node.WellFormed, hname],
      by simp [Entries.insert, Entries.ls, Node.ls, List.lookup], ?_⟩
    intro vis q hq
    simp [Entries.insert, Entries.ls, Node.ls, lookup_single_ne _ _ _ hq]
  | .cons n x rest, priv, p, name, t, c, mode, hwf, hname, hfresh => by
    have hwf0 := hwf
    simp only [Entries.WellFormed, Bool.and_eq_true, Bool.not_eq_true'] at hwf
    obtain ⟨⟨⟨hplain, hfreshn⟩, hx⟩, hrest⟩ := hwf
    simp only [Entries.hasName, Bool.or_eq_false_iff, decide_eq_false_iff_not] at hfresh
    obtain ⟨hne, hfresh2⟩ := hfresh
    unfold Entries.insert
    by_cases h : name.data < n.data
    · simp only [h, if_true]
      refine ⟨?_, by simp [Entries.ls, Node.ls, List.lookup], ?_⟩
      · simp [Entries.WellFormed, Entries.hasName, Node.WellFormed, hname, hwf0, hne, hfresh2,
          hplain, hfreshn, hx, hrest]
      · intro vis q hq
        have : (q == Join p name) = false := by simpa using hq
        simp [Entries.ls, Node.ls, List.lookup, this]
    · simp only [h, if_false]
      obtain ⟨hiwf, hil, hif⟩ := Entries.insert_spec rest priv p name t c mode hrest hname hfresh2
      refine ⟨?_, ?_, ?_⟩
      · have hnn : (name = n) = False := by simpa using fun hh : name = n => hne hh.symm
        simp [Entries.WellFormed, hplain, hx, hiwf, Entries.hasName_insert, hfreshn, hnn]
      · simp only [Entries.ls, List.lookup_append]
        rw [lookup_eq_none_of_not_mem _ _
          (Node.not_mem_sibling x priv true p n name hx hplain hname hne)]
        simpa using hil
      · intro vis q hq
        simp only [Entries.ls, List.lookup_append, hif vis q hq]

/-- What a successful write to the entry `name` of a directory does to the paths below the
directory. -/
theorem Entries.put_spec (es es1 : Entries) (priv : Bool) (umask mode : Nat)
    (p name : String) (t : Int) (c : String)
    (hwf : es.WellFormed = true) (hname : plainName name = true)
    (h : es.put priv umask mode name t c = some es1) :
    maySearch priv mode = true ∧ es1.WellFormed = true ∧
    (∃ i, (es1.ls priv true p).lookup (Join p name) = some i ∧ i.content = some c) ∧
    ∀ vis q, q ≠ Join p name → (es1.ls priv vis p).lookup q = (es.ls priv vis p).lookup q := by
  unfold Entries.put at h
  by_cases hs : maySearch priv mode = true
  · simp only [hs, if_true] at h
    by_cases hn : es.hasName name = true
    · simp only [hn, if_true] at h
      obtain ⟨h1, _, h3, h4⟩ := Entries.overwrite_spec es es1 priv umask p name t c hwf hname h
      exact ⟨hs, h1, h3, h4⟩
    · have hn2 : es.hasName name = false := by simpa using hn
      simp only [hn2, Bool.false_eq_true, if_false] at h
      by_cases hw : mayWrite priv mode = true
      · simp only [hw, if_true, Option.some.injEq] at h
        subst h
        obtain ⟨h1, h2, h3⟩ := Entries.insert_spec es priv p name t c (newMode umask) hwf hname
          hn2
        exact ⟨hs, h1, ⟨_, h2, rfl⟩, h3⟩
      · simp [hw] at h
  · simp [hs] at h

/-- After a successful `os.WriteFile` the path `dataDir/name` leads to a file with the new
content, and every other path is what it was. -/
theorem WriteFile_spec (fs fs1 : FS) (name c : String) (t : Int)
    (hwf : fs.WellFormed) (hname : plainName name = true)
    (h : fs.WriteFile name c t = some fs1) :
    fs1.dataDir = fs.dataDir ∧ fs1.WellFormed ∧
    (∃ i, fs1.lstat (Join fs.dataDir name) = some i ∧ i.content = some c) ∧
    ∀ q, q ≠ Join fs.dataDir name → fs1.lstat q = fs.lstat q := by
  have hne : (Join fs.dataDir name == fs.dataDir) = false := by
    simpa using Join_ne_self fs.dataDir name hname
  unfold FS.WriteFile at h
  obtain ⟨hdir, hwf⟩ := hwf
  cases hroot : fs.root with
  | file t0 c0 mode => simp [hroot] at h
  | denied => simp [hroot] at h
  | dir mode es =>
    rw [hroot] at hwf
    simp only [Node.WellFormed] at hwf
    simp only [hroot, Option.map_eq_some'] at h
    obtain ⟨es1, hes, rfl⟩ := h
    obtain ⟨hs, hwf1, ⟨i, hi, hic⟩, hframe⟩ :=
      Entries.put_spec es es1 fs.privileged fs.umask mode fs.dataDir name t c hwf hname hes
    refine ⟨rfl, ⟨hdir, by simpa [Node.WellFormed] using hwf1⟩, ⟨i, ?_, hic⟩, ?_⟩
    · simp only [FS.lstat, Node.ls, List.lookup_cons, hne, hs, Bool.and_self]
      exact hi
    · intro q hq
      simp only [FS.lstat, Node.ls, hroot, List.lookup_cons, hframe _ q hq]
  | link target =>
    cases target with
    | file t0 c0 mode => simp [hroot] at h
    | absent => simp [hroot] at h
    | unreachable => simp [hroot] at h
    | dir time mode es =>
      rw [hroot] at hwf
      simp only [Node.WellFormed, Target.WellFormed] at hwf
      simp only [hroot, Option.map_eq_some'] at h
      obtain ⟨es1, hes, rfl⟩ := h
      obtain ⟨hs, hwf1, ⟨i, hi, hic⟩, hframe⟩ :=
        Entries.put_spec es es1 fs.privileged fs.umask mode fs.dataDir name t c hwf hname hes
      refine ⟨rfl, ⟨hdir, by simpa [Node.WellFormed, Target.WellFormed] using hwf1⟩,
        ⟨i, ?_, hic⟩, ?_⟩
      · simp only [FS.lstat, Node.ls, Target.ls, List.lookup_cons, hne, hs, Bool.and_self]
        exact hi
      · intro q hq
        simp only [FS.lstat, Node.ls, Target.ls, Target.resolved, hroot, List.lookup_cons,
          hframe _ q hq]

/-! ## Lemmas: file names -/

theorem toDigitsCore_eq_decimalText : ∀ (fuel n : Nat) (ds : List Char), n < fuel →
    Nat.toDigitsCore 10 fuel n ds = decimalText n ++ ds
  | 0, n, ds, h => by omega
  | fuel + 1, n, ds, h => by
    unfold Nat.toDigitsCore
    simp only
    by_cases h0 : n / 10 = 0
    · have hlt : n < 10 := by omega
      simp only [h0, if_true]
      unfold decimalText
      by_cases hn : n = 0
      · subst hn
        rfl
      · simp [hn, Nat.digits_of_lt 10 n hn hlt, Nat.mod_eq_of_lt hlt]
    · simp only [h0, if_false]
      have hpos : 0 < n := by omega
      rw [toDigitsCore_eq_decimalText fuel (n / 10) _ (by omega)]
      unfold decimalText
      have hn : n ≠ 0 := by omega
      simp only [h0, hn, if_false]
      rw [Nat.digits_def' (by decide) hpos]
      simp

theorem toDigits_eq_decimalText (n : Nat) : Nat.toDigits 10 n = decimalText n := by
  unfold Nat.toDigits
  rw [toDigitsCore_eq_decimalText (n + 1) n [] (by omega), List.append_nil]

theorem appendInt_data (x width : Nat) : (appendInt x width).data = zeroPadded width x := by
  unfold appendInt zeroPadded
  rw [toDigits_eq_decimalText]

/-- The layout "2006-01-02-15-04" gives the text YYYY-MM-DD-hh-mm. -/
theorem formatMinute_eq_stampText (t : Time) : formatMinute t = stampText t := by
  unfold formatMinute stampText
  rw [String.ext_iff]
  simp only [String.data_append, appendInt_data]
  simp [List.append_assoc]

theorem digitChar_ne_sep : ∀ d, d < 10 → Nat.digitChar d ≠ '/' := by decide

theorem toDigitsCore_noSep : ∀ (fuel n : Nat) (ds : List Char), '/' ∉ ds →
    '/' ∉ Nat.toDigitsCore 10 fuel n ds
  | 0, _, ds, h => by simpa [Nat.toDigitsCore] using h
  | fuel + 1, n, ds, h => by
    have hd : '/' ∉ Nat.digitChar (n % 10) :: ds := by
      intro hm
      rcases List.mem_cons.1 hm with hm | hm
      · exact digitChar_ne_sep _ (Nat.mod_lt _ (by decide)) hm.symm
      · exact h hm
    unfold Nat.toDigitsCore
    simp only
    split
    · exact hd
    · exact toDigitsCore_noSep fuel _ _ hd

theorem appendInt_noSep (x width : Nat) : '/' ∉ (appendInt x width).data := by
  unfold appendInt
  simp only [List.mem_append, not_or]
  refine ⟨?_, toDigitsCore_noSep _ _ _ (by simp)⟩
  intro h
  have := List.eq_of_mem_replicate h
  exact absurd this (by decide)

theorem fileName_noSep (now : Time) : '/' ∉ (fileName now).data := by
  unfold fileName formatMinute
  simp only [String.data_append, List.mem_append, not_or]
  repeat' apply And.intro
  all_goals first
    | exact appendInt_noSep _ _
    | decide

/-- The file name built by `saveFile` is an entry name. -/
theorem fileName_plain (now : Time) : plainName (fileName now) = true := by
  have hlen : 7 ≤ (fileName now).data.length := by
    simp [fileName, String.data_append]
  simp only [plainName, Bool.and_eq_true, decide_eq_true_eq]
  refine ⟨⟨⟨?_, ?_⟩, ?_⟩, fileName_noSep now⟩
  · intro h
    rw [h] at hlen
    simp at hlen
  · intro h
    rw [h] at hlen
    simp at hlen
  · intro h
    rw [h] at hlen
    simp at hlen

theorem filePath_eq (fs : FS) (now : Time) :
    filePath fs now = Join fs.dataDir (stampText now ++ "-log.md") := by
  unfold filePath fileName
  rw [formatMinute_eq_stampText]

/-! ## Lemmas: `filepath.Ext` -/

theorem extScan_eq_md (rev acc : List Char) (hacc : ∀ c ∈ acc, c ≠ '.' ∧ c ≠ '/') :
    extScan rev acc = ['.', 'm', 'd'] ↔
      ∃ pre post, rev = pre ++ '.' :: post ∧ pre.reverse ++ acc = ['m', 'd'] ∧
        ∀ c ∈ pre, c ≠ '.' ∧ c ≠ '/' := by
  induction rev generalizing acc with
  | nil => simp [extScan]
  | cons c rev ih =>
    unfold extScan
    by_cases h1 : c = '/'
    · subst h1
      simp only [if_true]
      constructor
      · intro h; cases h
      · rintro ⟨pre, post, h, _, hp⟩
        cases pre with
        | nil => simp at h
        | cons a pre =>
          simp only [List.cons_append, List.cons.injEq] at h
          have := (hp a (List.mem_cons_self _ _)).2
          exact absurd h.1.symm this
    · by_cases h2 : c = '.'
      · subst h2
        simp only [h1, if_false, if_true, List.cons.injEq, true_and]
        constructor
        · intro h
          exact ⟨[], rev, rfl, by simpa using h, by simp⟩
        · rintro ⟨pre, post, h, hm, hp⟩
          cases pre with
          | nil => simpa using hm
          | cons a pre =>
            simp only [List.cons_append, List.cons.injEq] at h
            have := (hp a (List.mem_cons_self _ _)).1
            exact absurd h.1.symm this
      · simp only [h1, h2, if_false]
        rw [ih (c :: acc) (by
          intro d hd
          rcases List.mem_cons.1 hd with rfl | hd
          · exact ⟨h2, h1⟩
          · exact hacc d hd)]
        constructor
        · rintro ⟨pre, post, h, hm, hp⟩
          refine ⟨c :: pre, post, by simp [h], by simpa using hm, ?_⟩
          intro d hd
          rcases List.mem_cons.1 hd with rfl | hd
          · exact ⟨h2, h1⟩
          · exact hp d hd
        · rintro ⟨pre, post, h, hm, hp⟩
          cases pre with
          | nil =>
            simp only [List.nil_append, List.cons.injEq] at h
            exact absurd h.1 h2
          | cons a pre =>
            simp only [List.cons_append, List.cons.injEq] at h
            obtain ⟨rfl, rfl⟩ := h
            exact ⟨pre, post, rfl, by simpa using hm,
              fun d hd => hp d (List.mem_cons_of_mem _ hd)⟩

/-- The test `filepath.Ext(path) == ".md"` says that the path ends in ".md". -/
theorem Ext_eq_md_iff (path : String) : Ext path = ".md" ↔ endsInMd path := by
  unfold Ext endsInMd
  rw [String.ext_iff]
  show extScan path.data.reverse [] = ['.', 'm', 'd'] ↔ _
  rw [extScan_eq_md _ _ (by simp)]
  constructor
  · rintro ⟨pre, post, h, hm, _⟩
    simp only [List.append_nil] at hm
    have h2 : path.data = post.reverse ++ ['.', 'm', 'd'] := by
      have := congrArg List.reverse h
      simp only [List.reverse_reverse, List.reverse_append, List.reverse_cons, hm,
        List.append_assoc] at this
      simpa using this
    exact ⟨post.reverse, h2.symm⟩
  · rintro ⟨pre, h⟩
    refine ⟨['d', 'm'], pre.reverse, ?_, by simp, by decide⟩
    rw [← h]
    simp

/-! ## Lemmas: `sort.Slice` -/

theorem siftPure_perm {α : Type} (lt : α → α → Bool) (x : α) (rev : List α) : (siftPure lt x rev).Perm (x :: rev) := by
  induction rev with
  | nil => exact List.Perm.refl _
  | cons y rev ih =>
    unfold siftPure
    split
    · exact ((List.Perm.cons y ih).trans (List.Perm.swap x y rev))
    · exact List.Perm.refl _

theorem foldl_siftPure_perm {α : Type} (lt : α → α → Bool) (xs rev : List α) :
    (xs.foldl (fun rev x => siftPure lt x rev) rev).Perm (xs.reverse ++ rev) := by
  induction xs generalizing rev with
  | nil => simp
  | cons x xs ih =>
    simp only [List.foldl_cons, List.reverse_cons, List.append_assoc, List.singleton_append]
    refine (ih _).trans ?_
    exact List.Perm.append_left _ (siftPure_perm lt x rev)

theorem sortPure_perm {α : Type} (lt : α → α → Bool) (xs : List α) : (sortPure lt xs).Perm xs := by
  unfold sortPure
  refine (List.reverse_perm _).trans ?_
  refine (foldl_siftPure_perm lt xs []).trans ?_
  rw [List.append_nil]
  exact List.reverse_perm xs

theorem siftPure_descending {α : Type} (lt : α → α → Bool)
    (hasym : ∀ a b, lt a b = true → lt b a = false)
    (htrans : ∀ a b c, lt a b = false → lt b c = false → lt a c = false)
    (x : α) (rev : List α) (h : rev.Pairwise (fun a b => lt a b = false)) :
    (siftPure lt x rev).Pairwise (fun a b => lt a b = false) := by
  induction rev with
  | nil => simp [siftPure]
  | cons y rev ih =>
    rw [List.pairwise_cons] at h
    unfold siftPure
    by_cases hxy : lt x y = true
    · simp only [hxy, if_true]
      rw [List.pairwise_cons]
      refine ⟨?_, ih h.2⟩
      intro z hz
      rcases List.mem_cons.1 ((siftPure_perm lt x rev).subset hz) with rfl | hz
      · exact hasym _ _ hxy
      · exact h.1 z hz
    · have hxy2 : lt x y = false := by simpa using hxy
      simp only [hxy2, if_false, Bool.false_eq_true]
      rw [List.pairwise_cons]
      refine ⟨?_, List.pairwise_cons.2 h⟩
      intro z hz
      rcases List.mem_cons.1 hz with rfl | hz
      · exact hxy2
      · exact htrans _ _ _ hxy2 (h.1 z hz)

theorem foldl_siftPure_descending {α : Type} (lt : α → α → Bool)
    (hasym : ∀ a b, lt a b = true → lt b a = false)
    (htrans : ∀ a b c, lt a b = false → lt b c = false → lt a c = false)
    (xs rev : List α) (h : rev.Pairwise (fun a b => lt a b = false)) :
    (xs.foldl (fun rev x => siftPure lt x rev) rev).Pairwise (fun a b => lt a b = false) := by
  induction xs generalizing rev with
  | nil => simpa using h
  | cons x xs ih =>
    simp only [List.foldl_cons]
    exact ih _ (siftPure_descending lt hasym htrans x rev h)

/-- After `sort.Slice` no later element is less than an earlier one. -/
theorem sortPure_sorted {α : Type} (lt : α → α → Bool)
    (hasym : ∀ a b, lt a b = true → lt b a = false)
    (htrans : ∀ a b c, lt a b = false → lt b c = false → lt a c = false) (xs : List α) :
    (sortPure lt xs).Pairwise (fun a b => lt b a = false) := by
  unfold sortPure
  rw [List.pairwise_reverse]
  exact foldl_siftPure_descending lt hasym htrans xs [] List.Pairwise.nil

/-! ## Lemmas: the comparison of `loadFiles` -/

theorem less_iff (time : String → Int) (a b : String) :
    lessAt time a b = true ↔
      time a < time b ∨ (time a = time b ∧ a < b) := by
  unfold lessAt
  by_cases h : time a = time b
  · simp [h, String.lt_iff]
  · simp only [h, if_false, decide_eq_true_eq, false_and, or_false]

theorem less_asymm (time : String → Int) (a b : String) (h : lessAt time a b = true) : lessAt time b a = false := by
  rw [less_iff] at h
  rw [← Bool.not_eq_true, less_iff]
  rintro (h2 | ⟨h2, h3⟩)
  · rcases h with h | ⟨h, _⟩ <;> omega
  · rcases h with h | ⟨_, h⟩
    · omega
    · exact lt_asymm h h3

theorem less_total (time : String → Int) (a b : String) (hne : a ≠ b) (h : lessAt time b a = false) :
    lessAt time a b = true := by
  rw [← Bool.not_eq_true, less_iff] at h
  rw [less_iff]
  push_neg at h
  rcases lt_trichotomy (time a) (time b) with h1 | h1 | h1
  · exact Or.inl h1
  · refine Or.inr ⟨h1, ?_⟩
    have := h.2 h1.symm
    exact lt_of_le_of_ne (not_lt.1 this) hne
  · exact absurd h1 (not_lt.2 h.1)

theorem less_negtrans (time : String → Int) (a b c : String) (h1 : lessAt time a b = false)
    (h2 : lessAt time b c = false) : lessAt time a c = false := by
  rw [← Bool.not_eq_true, less_iff] at h1 h2 ⊢
  push_neg at h1 h2 ⊢
  refine ⟨by omega, ?_⟩
  intro h
  have hab : time a = time b := by omega
  have hbc : time b = time c := by omega
  have := h1.2 hab
  have := h2.2 hbc
  exact not_lt.2 (le_trans (not_lt.1 (h2.2 hbc)) (not_lt.1 (h1.2 hab)))

/-! ## Lemmas: the sort with a comparison that can fail -/

theorem siftLeft_eq_pure {α : Type} (lt : α → α → Option Bool) (ltb : α → α → Bool)
    (x : α) : ∀ (rev : List α), (∀ y ∈ rev, lt x y = some (ltb x y)) →
    siftLeft lt x rev = some (siftPure ltb x rev)
  | [], _ => rfl
  | y :: rev, h => by
    unfold siftLeft siftPure
    rw [h y (List.mem_cons_self _ _)]
    cases hb : ltb x y with
    | true =>
      simp only [if_true]
      rw [siftLeft_eq_pure lt ltb x rev (fun z hz => h z (List.mem_cons_of_mem _ hz))]
      rfl
    | false => simp

theorem sortLoop_eq_pure {α : Type} (lt : α → α → Option Bool) (ltb : α → α → Bool)
    (all : List α) (hdef : ∀ a ∈ all, ∀ b ∈ all, lt a b = some (ltb a b)) :
    ∀ (xs rev : List α), (∀ a ∈ xs, a ∈ all) → (∀ a ∈ rev, a ∈ all) →
    sortLoop lt xs rev = some (xs.foldl (fun r x => siftPure ltb x r) rev)
  | [], rev, _, _ => rfl
  | x :: xs, rev, hxs, hrev => by
    unfold sortLoop
    have hx := hxs x (List.mem_cons_self _ _)
    rw [siftLeft_eq_pure lt ltb x rev (fun y hy => hdef x hx y (hrev y hy))]
    simp only [List.foldl_cons]
    refine sortLoop_eq_pure lt ltb all hdef xs _ (fun a ha => hxs a (List.mem_cons_of_mem _ ha)) ?_
    intro a ha
    rcases List.mem_cons.1 ((siftPure_perm ltb x rev).subset ha) with rfl | ha
    · exact hx
    · exact hrev a ha

/-- Where the comparison does not fail on the elements of the slice, `sort.Slice` returns
what the insertion sort with the plain comparison returns. -/
theorem sortSlice_eq_pure {α : Type} (lt : α → α → Option Bool) (ltb : α → α → Bool)
    (xs : List α) (hdef : ∀ a ∈ xs, ∀ b ∈ xs, lt a b = some (ltb a b)) :
    sortSlice lt xs = some (sortPure ltb xs) := by
  unfold sortSlice sortPure
  rw [sortLoop_eq_pure lt ltb xs hdef xs [] (fun a ha => ha) (fun a ha => by simp at ha)]
  rfl

theorem less_eq_lessAt (fs : FS) (a b : String) (ha : (fs.ModTime a).isSome = true)
    (hb : (fs.ModTime b).isSome = true) : less fs a b = some (lessAt fs.timeOf a b) := by
  unfold less lessAt FS.timeOf
  cases h1 : fs.ModTime a with
  | none => simp [h1] at ha
  | some ta =>
    cases h2 : fs.ModTime b with
    | none => simp [h2] at hb
    | some tb => simp

/-- Any two arrangements of the same paths that are both in the order of the comparison
are equal: the slice `sort.Slice` returns does not depend on the sorting routine. -/
theorem sorted_perm_unique (time : String → Int) (l1 l2 : List String) (hp : l1.Perm l2)
    (h1 : l1.Pairwise (fun a b => lessAt time a b = true))
    (h2 : l2.Pairwise (fun a b => lessAt time a b = true)) : l1 = l2 := by
  haveI : IsAntisymm String (fun a b => lessAt time a b = true) :=
    ⟨fun a b hab hba => by rw [less_asymm time a b hab] at hba; cases hba⟩
  exact List.eq_of_perm_of_sorted hp h1 h2

/-! ## Lemmas: the walk -/

theorem nonDirKeys_append (l1 l2 : List (String × Info)) :
    nonDirKeys (l1 ++ l2) = nonDirKeys l1 ++ nonDirKeys l2 := by
  simp [nonDirKeys]

theorem nonDirKeys_sublist (l : List (String × Info)) :
    (nonDirKeys l).Sublist (l.map Prod.fst) := by
  induction l with
  | nil => exact List.Sublist.slnil
  | cons e l ih =>
    unfold nonDirKeys
    by_cases h : e.2.isDir = true
    · simp only [List.filterMap_cons, h, if_true, List.map_cons]
      exact List.Sublist.cons _ ih
    · simp only [List.filterMap_cons, h, if_false, List.map_cons]
      exact List.Sublist.cons₂ _ ih

theorem mem_nonDirKeys (l : List (String × Info)) (q : String) (h : q ∈ nonDirKeys l) :
    ∃ i, (q, i) ∈ l ∧ i.isDir = false := by
  unfold nonDirKeys at h
  rw [List.mem_filterMap] at h
  obtain ⟨⟨q1, i⟩, hm, hq⟩ := h
  cases hd : i.isDir with
  | true => simp [hd] at hq
  | false =>
    simp only [hd, Bool.false_eq_true, if_false, Option.some.injEq] at hq
    subst hq
    exact ⟨i, hm, hd⟩

mutual
/-- The walk appends only paths that the listing holds as non-directories. -/
theorem Node.walk_sublist : ∀ (x : Node) (priv : Bool) (p : String) (files : List String),
    ∃ w, (x.walk priv p files).1 = files ++ w ∧ w.Sublist (nonDirKeys (x.ls priv true p))
  | .file t c mode, priv, p, files => by
    by_cases h : Ext p = ".md"
    · exact ⟨[p], by simp [Node.walk, h], by simp [Node.ls, nonDirKeys, Info.isDir]⟩
    · exact ⟨[], by simp [Node.walk, h], by simp⟩
  | .link target, priv, p, files => by
    by_cases h : Ext p = ".md"
    · refine ⟨[p], by simp [Node.walk, h], ?_⟩
      simp only [Node.ls, nonDirKeys, List.filterMap_cons, Info.isDir, if_true,
        Bool.false_eq_true, if_false]
      exact List.Sublist.cons₂ _ (List.nil_sublist _)
    · exact ⟨[], by simp [Node.walk, h], by simp⟩
  | .denied, priv, p, files => ⟨[], by simp [Node.walk], by simp⟩
  | .dir mode es, priv, p, files => by
    by_cases hr : mayRead priv mode = true
    · obtain ⟨w, hw, hsub⟩ := Entries.children_walk_sublist es priv (maySearch priv mode)
        (maySearch priv mode) p files (fun h => h)
      refine ⟨w, by simp [Node.walk, hr, hw], ?_⟩
      simp only [Node.ls, nonDirKeys, List.filterMap_cons, Info.isDir, if_true, Bool.true_and]
      exact hsub
    · exact ⟨[], by simp [Node.walk, hr], by simp⟩
theorem Entries.children_walk_sublist : ∀ (es : Entries) (priv search vis : Bool)
    (p : String) (files : List String), (search = true → vis = true) →
    ∃ w, (es.walk priv search p files).1 = files ++ w ∧
      w.Sublist (nonDirKeys (es.ls priv vis p))
  | .nil, priv, search, vis, p, files, _ => ⟨[], by simp [Entries.walk], by simp⟩
  | .cons name x rest, priv, search, vis, p, files, hsv => by
    cases search with
    | false => exact ⟨[], by simp [Entries.walk], by simp⟩
    | true =>
      have hvis : vis = true := hsv rfl
      subst hvis
      obtain ⟨w1, hw1, hs1⟩ := Node.walk_sublist x priv (Join p name) files
      obtain ⟨w2, hw2, hs2⟩ := Entries.children_walk_sublist rest priv true true p
        (files ++ w1) (fun h => h)
      simp only [Entries.walk, if_true, Entries.ls, nonDirKeys_append]
      cases hres : x.walk priv (Join p name) files with
      | mk files1 ok =>
        rw [hres] at hw1
        simp only at hw1
        subst hw1
        cases ok with
        | true =>
          simp only
          exact ⟨w1 ++ w2, by simp [hw2], hs1.append hs2⟩
        | false =>
          simp only
          exact ⟨w1, rfl, hs1.trans (List.sublist_append_left _ _)⟩
end

theorem walked_sublist (fs : FS) :
    fs.walked.Sublist (nonDirKeys (fs.root.ls fs.privileged true fs.dataDir)) := by
  obtain ⟨w, hw, hsub⟩ := Node.walk_sublist fs.root fs.privileged fs.dataDir []
  unfold FS.walked
  rw [hw, List.nil_append]
  exact hsub

theorem walked_nodup (fs : FS) (hwf : fs.WellFormed) : fs.walked.Nodup :=
  (Node.ls_nodup fs.root fs.privileged true fs.dataDir hwf.2).sublist
    ((walked_sublist fs).trans (nonDirKeys_sublist _))

/-- In a well-formed tree `os.Lstat` finds a non-directory at every path the walk lists. -/
theorem walked_not_dir (fs : FS) (hwf : fs.WellFormed) (p : String) (hp : p ∈ fs.walked) :
    ∃ i, fs.lstat p = some i ∧ i.isDir = false := by
  obtain ⟨i, hm, hd⟩ := mem_nonDirKeys _ p ((walked_sublist fs).subset hp)
  exact ⟨i, lookup_of_mem_nodup _ _ _ hm
    (Node.ls_nodup fs.root fs.privileged true fs.dataDir hwf.2), hd⟩

mutual
/-- On a readable tree the walk runs to the end and appends the non-directories whose
extension is ".md". -/
theorem Node.walk_eq : ∀ (x : Node) (priv : Bool) (p : String) (files : List String),
    x.Readable priv = true →
    x.walk priv p files =
      (files ++ (x.nonDirs p).filter (fun q => decide (Ext q = ".md")), true)
  | .file t c mode, priv, p, files, _ => by
    by_cases h : Ext p = ".md" <;> simp [Node.walk, Node.nonDirs, h]
  | .link target, priv, p, files, _ => by
    by_cases h : Ext p = ".md" <;> simp [Node.walk, Node.nonDirs, h]
  | .denied, priv, p, files, h => by simp [Node.Readable] at h
  | .dir mode es, priv, p, files, h => by
    simp only [Node.Readable, Bool.and_eq_true] at h
    simp only [Node.walk, h.1.1, if_true, h.1.2, Node.nonDirs]
    exact Entries.children_walk_eq es priv p files h.2
theorem Entries.children_walk_eq : ∀ (es : Entries) (priv : Bool) (p : String)
    (files : List String), es.Readable priv = true →
    es.walk priv true p files =
      (files ++ (es.nonDirs p).filter (fun q => decide (Ext q = ".md")), true)
  | .nil, priv, p, files, _ => by simp [Entries.walk, Entries.nonDirs]
  | .cons name x rest, priv, p, files, h => by
    simp only [Entries.Readable, Bool.and_eq_true] at h
    simp only [Entries.walk, if_true, Entries.nonDirs]
    rw [Node.walk_eq x priv _ files h.1]
    simp only
    rw [Entries.children_walk_eq rest priv p _ h.2, List.filter_append, List.append_assoc]
end

theorem walked_eq_markdown (fs : FS) (hr : fs.Readable) :
    fs.walked = fs.regularFiles.filter (fun p => decide (endsInMd p)) := by
  unfold FS.walked FS.regularFiles
  rw [Node.walk_eq fs.root fs.privileged fs.dataDir [] hr, List.nil_append]
  apply List.filter_congr
  intro q _
  exact decide_eq_decide.2 (Ext_eq_md_iff q)

/-! ## Lemmas: `loadFiles` -/

/-- Where `os.Stat` succeeds on every path the walk lists, `loadFiles` returns these paths,
each once, every one before the next by modification time, then by path. -/
theorem loadFiles_sorted (fs : FS) (hwf : fs.WellFormed)
    (hstat : ∀ p ∈ fs.walked, (fs.ModTime p).isSome = true) :
    ∃ files, loadFiles fs = .ok files ∧ files.Perm fs.walked ∧ files.Nodup ∧
      files.Pairwise fs.before := by
  have hsort : sortSlice (less fs) fs.walked = some (sortPure (lessAt fs.timeOf) fs.walked) :=
    sortSlice_eq_pure _ _ _ (fun a ha b hb => less_eq_lessAt fs a b (hstat a ha) (hstat b hb))
  have hperm := sortPure_perm (lessAt fs.timeOf) fs.walked
  have hnd : (sortPure (lessAt fs.timeOf) fs.walked).Nodup :=
    hperm.nodup_iff.2 (walked_nodup fs hwf)
  refine ⟨_, by simp [loadFiles, hsort], hperm, hnd, ?_⟩
  have hsorted : (sortPure (lessAt fs.timeOf) fs.walked).Pairwise
      (fun a b => lessAt fs.timeOf b a = false) :=
    sortPure_sorted _ (less_asymm fs.timeOf) (less_negtrans fs.timeOf) _
  refine (List.Pairwise.and_mem.1 (hsorted.and hnd)).imp ?_
  rintro a b ⟨ha, hb, hba, hne⟩
  have hl := (less_iff fs.timeOf a b).1 (less_total fs.timeOf a b hne hba)
  have hsa := hstat a (hperm.subset ha)
  have hsb := hstat b (hperm.subset hb)
  cases h1 : fs.ModTime a with
  | none => simp [h1] at hsa
  | some ta =>
    cases h2 : fs.ModTime b with
    | none => simp [h2] at hsb
    | some tb =>
      simp only [FS.timeOf, h1, h2, Option.getD_some] at hl
      exact ⟨ta, tb, h1, h2, hl⟩

/-- The comparison is called as soon as the walk has listed two paths; `loadFiles` then
fails if `os.Stat` fails on one of the first two. -/
theorem loadFiles_fails (fs : FS) (a b : String) (rest : List String)
    (hw : fs.walked = a :: b :: rest)
    (h : fs.ModTime a = none ∨ fs.ModTime b = none) :
    loadFiles fs = .error Failure.nilDereference := by
  have hless : less fs b a = none := by
    unfold less
    rcases h with h | h
    · rw [h]
      cases fs.ModTime b <;> rfl
    · rw [h]
  simp [loadFiles, sortSlice, hw, sortLoop, siftLeft, hless]

/-! ## Lemmas: the controller -/

theorem route_fs (tk : Toolkit) (fs : FS) (m : model) (msg : Msg) :
    (route tk fs m msg).fs = fs := by
  unfold route
  split <;> rfl

theorem route_state (tk : Toolkit) (fs : FS) (m : model) (msg : Msg) :
    (route tk fs m msg).m.state = m.state := by
  unfold route
  split <;> simp_all

theorem route_files (tk : Toolkit) (fs : FS) (m : model) (msg : Msg) :
    (route tk fs m msg).m.files = m.files := by
  unfold route
  split <;> rfl

theorem route_selected (tk : Toolkit) (fs : FS) (m : model) (msg : Msg) :
    (route tk fs m msg).m.selected = m.selected := by
  unfold route
  split <;> rfl

theorem route_textarea (tk : Toolkit) (fs : FS) (m : model) (msg : Msg)
    (h : m.state ≠ .editView) : (route tk fs m msg).m.textarea = m.textarea := by
  unfold route
  split <;> simp_all

theorem Update_quit (tk : Toolkit) (fs : FS) (now : Time) (m : model) :
    Update tk fs now m (.KeyMsg "ctrl+q") = .ok { m := m, cmd := Cmd.Quit, fs := fs } := by
  simp [Update]

theorem Update_new (tk : Toolkit) (fs : FS) (now : Time) (m : model)
    (h : m.state = .listView) :
    Update tk fs now m (.KeyMsg "ctrl+n") =
      .ok (route tk fs { m with
        textarea := tk.textareaSetValue (tk.textareaReset m.textarea)
          (formatSecond now ++ "\n\n"),
        state := .editView } (.KeyMsg "ctrl+n")) := by
  simp [Update, h]

theorem Update_save (tk : Toolkit) (fs : FS) (now : Time) (m : model)
    (h : m.state = .editView) :
    Update tk fs now m (.KeyMsg "ctrl+s") =
      match saveFile fs now m.textarea.Value with
      | none => .error Failure.fatal
      | some fs1 =>
        match loadFiles fs1 with
        | .error e => .error e
        | .ok files =>
          .ok (route tk fs1
            (refreshList tk { m with state := .listView, files := files })
            (.KeyMsg "ctrl+s")) := by
  simp [Update, h]

theorem Update_save_ok (tk : Toolkit) (fs fs1 : FS) (now : Time) (m : model)
    (files : List String) (h : m.state = .editView)
    (hw : saveFile fs now m.textarea.Value = some fs1) (hl : loadFiles fs1 = .ok files) :
    Update tk fs now m (.KeyMsg "ctrl+s") =
      .ok (route tk fs1 (refreshList tk { m with state := .listView, files := files })
        (.KeyMsg "ctrl+s")) := by
  rw [Update_save tk fs now m h, hw]
  simp only [hl]

/-- Whatever the save key in Edit mode returns comes from a write that succeeded and a
reload that returned. -/
theorem Update_save_inv (tk : Toolkit) (fs : FS) (now : Time) (m : model) (r : Next)
    (h : m.state = .editView) (hr : Update tk fs now m (.KeyMsg "ctrl+s") = .ok r) :
    ∃ fs1 files, saveFile fs now m.textarea.Value = some fs1 ∧ loadFiles fs1 = .ok files ∧
      r = route tk fs1 (refreshList tk { m with state := .listView, files := files })
        (.KeyMsg "ctrl+s") := by
  rw [Update_save tk fs now m h] at hr
  cases hw : saveFile fs now m.textarea.Value with
  | none => simp [hw] at hr
  | some fs1 =>
    cases hl : loadFiles fs1 with
    | error e => simp [hw, hl] at hr
    | ok files =>
      simp only [hw, hl, Except.ok.injEq] at hr
      exact ⟨fs1, files, rfl, hl, hr.symm⟩

theorem Update_back (tk : Toolkit) (fs : FS) (now : Time) (m : model)
    (h : m.state = .editView ∨ m.state = .viewerView) :
    Update tk fs now m (.KeyMsg "ctrl+b") =
      .ok (route tk fs { m with state := .listView } (.KeyMsg "ctrl+b")) := by
  simp [Update, h]

theorem Update_enter (tk : Toolkit) (fs : FS) (now : Time) (m : model)
    (h : m.state = .listView) :
    Update tk fs now m (.KeyMsg "enter") =
      match m.files[m.list.Index]? with
      | none => .error Failure.indexOutOfRange
      | some f =>
        .ok (route tk fs { m with selected := f, state := .viewerView } (.KeyMsg "enter")) := by
  simp [Update, h]

/-- Every message that takes none of the five edges goes to the widget of the mode. -/
theorem Update_other (tk : Toolkit) (fs : FS) (now : Time) (m : model) (msg : Msg)
    (hq : msg ≠ .KeyMsg "ctrl+q")
    (hn : msg = .KeyMsg "ctrl+n" → m.state ≠ .listView)
    (hs : msg = .KeyMsg "ctrl+s" → m.state ≠ .editView)
    (hb : msg = .KeyMsg "ctrl+b" → m.state = .listView)
    (he : msg = .KeyMsg "enter" → m.state ≠ .listView) :
    ∃ r, Update tk fs now m msg = .ok r ∧ r.fs = fs ∧ r.m.state = m.state ∧
      r.m.files = m.files ∧ r.m.selected = m.selected := by
  cases msg with
  | KeyMsg k =>
    simp only [Msg.KeyMsg.injEq, ne_eq] at hq hn hs hb he
    unfold Update
    simp only [hq, if_false]
    split_ifs
    all_goals first
      | exact ⟨_, rfl, route_fs _ _ _ _, route_state _ _ _ _, route_files _ _ _ _,
          route_selected _ _ _ _⟩
      | (exfalso; simp_all)
  | WindowSizeMsg w h =>
    exact ⟨_, rfl, route_fs _ _ _ _, route_state _ _ _ _, route_files _ _ _ _,
      route_selected _ _ _ _⟩
  | other t =>
    exact ⟨_, rfl, route_fs _ _ _ _, route_state _ _ _ _, route_files _ _ _ _,
      route_selected _ _ _ _⟩

/-- The ways `Update` can go: one of the five bound keys in a mode where it acts, the quit
key, or a message that only reaches the widget of the mode. -/
theorem Update_cases (tk : Toolkit) (fs : FS) (now : Time) (m : model) (msg : Msg) :
    msg = .KeyMsg "ctrl+q" ∨
    (msg = .KeyMsg "ctrl+n" ∧ m.state = .listView) ∨
    (msg = .KeyMsg "ctrl+s" ∧ m.state = .editView) ∨
    (msg = .KeyMsg "ctrl+b" ∧ (m.state = .editView ∨ m.state = .viewerView)) ∨
    (msg = .KeyMsg "enter" ∧ m.state = .listView) ∨
    (specMode m.state msg = m.state ∧
      ∃ r, Update tk fs now m msg = .ok r ∧ r.fs = fs ∧ r.m.state = m.state ∧
        r.m.files = m.files ∧ r.m.selected = m.selected) := by
  by_cases hq : msg = .KeyMsg "ctrl+q"
  · exact Or.inl hq
  by_cases hn : msg = .KeyMsg "ctrl+n" ∧ m.state = .listView
  · exact Or.inr (Or.inl hn)
  by_cases hs : msg = .KeyMsg "ctrl+s" ∧ m.state = .editView
  · exact Or.inr (Or.inr (Or.inl hs))
  by_cases hb : msg = .KeyMsg "ctrl+b" ∧ (m.state = .editView ∨ m.state = .viewerView)
  · exact Or.inr (Or.inr (Or.inr (Or.inl hb)))
  by_cases he : msg = .KeyMsg "enter" ∧ m.state = .listView
  · exact Or.inr (Or.inr (Or.inr (Or.inr (Or.inl he))))
  refine Or.inr (Or.inr (Or.inr (Or.inr (Or.inr ⟨?_, ?_⟩))))
  · cases msg with
    | KeyMsg k =>
      simp only [Msg.KeyMsg.injEq] at hq hn hs hb he
      cases hst : m.state <;> simp only [specMode, hst] at hn hs hb he ⊢ <;>
        split_ifs <;> simp_all
    | WindowSizeMsg w h => cases hst : m.state <;> rfl
    | other t => cases hst : m.state <;> rfl
  · refine Update_other tk fs now m msg hq (fun h1 h2 => hn ⟨h1, h2⟩)
      (fun h1 h2 => hs ⟨h1, h2⟩) ?_ (fun h1 h2 => he ⟨h1, h2⟩)
    intro h1
    cases hst : m.state with
    | listView => rfl
    | editView => exact absurd ⟨h1, Or.inl hst⟩ hb
    | viewerView => exact absurd ⟨h1, Or.inr hst⟩ hb

/-- In Edit mode a message that neither saves nor cancels keeps the mode, the file store
and the entry list. -/
theorem Update_editing (tk : Toolkit) (fs : FS) (now : Time) (m : model) (msg : Msg)
    (hm : m.state = .editView) (he : editing msg) :
    ∃ r, Update tk fs now m msg = .ok r ∧ r.fs = fs ∧ r.m.state = .editView ∧
      r.m.files = m.files := by
  rcases Update_cases tk fs now m msg with hq | ⟨_, hst⟩ | ⟨hs, _⟩ | ⟨hb, _⟩ |
    ⟨_, hst⟩ | ⟨_, r, h1, h2, h3, h4, _⟩
  · subst hq
    exact ⟨_, Update_quit tk fs now m, rfl, hm, rfl⟩
  · rw [hm] at hst
    cases hst
  · exact absurd hs he.1
  · exact absurd hb he.2
  · rw [hm] at hst
    cases hst
  · exact ⟨r, h1, h2, h3.trans hm, h4⟩

theorem run_cons_ok (tk : Toolkit) (fs : FS) (now : Time) (m : model) (msg : Msg)
    (rest : List (Time × Msg)) (r : Next) (h : Update tk fs now m msg = .ok r) :
    run tk ((now, msg) :: rest) fs m = run tk rest r.fs r.m := by
  simp only [run, h]

theorem run_append (tk : Toolkit) : ∀ (xs ys : List (Time × Msg)) (fs : FS) (m : model),
    run tk (xs ++ ys) fs m =
      match run tk xs fs m with
      | .ok r => run tk ys r.2 r.1
      | .error e => .error e
  | [], ys, fs, m => rfl
  | (now, msg) :: xs, ys, fs, m => by
    simp only [List.cons_append, run]
    cases h : Update tk fs now m msg with
    | error e => rfl
    | ok r => exact run_append tk xs ys r.fs r.m

theorem run_editing (tk : Toolkit) : ∀ (keys : List (Time × Msg)) (fs : FS) (m : model),
    m.state = .editView → (∀ e ∈ keys, editing e.2) →
    ∃ m1, run tk keys fs m = .ok (m1, fs) ∧ m1.state = .editView ∧ m1.files = m.files
  | [], fs, m, hm, _ => ⟨m, rfl, hm, rfl⟩
  | (now, msg) :: keys, fs, m, hm, hk => by
    obtain ⟨r, h1, h2, h3, h4⟩ :=
      Update_editing tk fs now m msg hm (hk (now, msg) (List.mem_cons_self _ _))
    obtain ⟨m1, h5, h6, h7⟩ := run_editing tk keys r.fs r.m h3
      (fun e he => hk e (List.mem_cons_of_mem _ he))
    rw [h2] at h5
    refine ⟨m1, ?_, h6, h7.trans h4⟩
    rw [run_cons_ok tk fs now m msg keys r h1, h2, h5]

/-! ## The entry-list loader -/

/-- C1 at a data directory that holds a regular file and a dangling symbolic link, both
with the extension ".md": `os.Lstat` succeeds on every node and the walk lists both paths,
`os.Stat` fails on the link, and the comparison of `loadFiles`, which drops that error,
calls `ModTime()` on a nil `FileInfo`: `loadFiles` panics instead of returning the list. -/
theorem loadFiles_panics_on_dangling_link :
    danglingFS.WellFormed ∧ danglingFS.Readable ∧
    danglingFS.walked = ["~/.warlog/a-log.md", "~/.warlog/b-log.md"] ∧
    danglingFS.regularFiles = ["~/.warlog/a-log.md", "~/.warlog/b-log.md"] ∧
    danglingFS.lstat "~/.warlog/b-log.md" = some (Info.link Resolved.absent) ∧
    danglingFS.ModTime "~/.warlog/b-log.md" = none ∧
    loadFiles danglingFS = .error Failure.nilDereference := by
  decide

/-- Where the walk reads all metadata and `os.Stat` succeeds on every listed path,
`loadFiles` returns exactly the non-directories of the subtree whose path ends in ".md",
each once, and every entry precedes its successor by modification time, then by path. -/
theorem loadFiles_markdown_sorted (fs : FS) (hwf : fs.WellFormed) (hr : fs.Readable)
    (hstat : ∀ p ∈ fs.regularFiles, endsInMd p → (fs.ModTime p).isSome = true) :
    ∃ files, loadFiles fs = .ok files ∧
      (∀ p, p ∈ files ↔ p ∈ fs.regularFiles ∧ endsInMd p) ∧
      files.Nodup ∧
      files.length = (fs.regularFiles.filter (fun p => decide (endsInMd p))).length ∧
      ∀ (i : Nat) (h : i + 1 < files.length),
        fs.before (files.get ⟨i, Nat.lt_of_succ_lt h⟩) (files.get ⟨i + 1, h⟩) := by
  have hw := walked_eq_markdown fs hr
  obtain ⟨files, hl, hperm, hnd, hpair⟩ := loadFiles_sorted fs hwf (by
    intro p hp
    rw [hw, List.mem_filter, decide_eq_true_eq] at hp
    exact hstat p hp.1 hp.2)
  rw [hw] at hperm
  refine ⟨files, hl, ?_, hnd, hperm.length_eq, ?_⟩
  · intro p
    rw [hperm.mem_iff, List.mem_filter, decide_eq_true_eq]
  · intro i h
    rw [List.pairwise_iff_get] at hpair
    exact hpair ⟨i, Nat.lt_of_succ_lt h⟩ ⟨i + 1, h⟩ (by simp)

/-- The entry list of the sample directory: the file of the sub-directory is the oldest,
the two entries of equal time follow in the order of their paths, the text file is left
out. -/
theorem loadFiles_sample :
    sampleFS.Readable ∧ loadFiles sampleFS = .ok sampleFiles ∧
    sampleFS.ModTime "~/.warlog/a-log.md" = some 20 ∧
    sampleFS.ModTime "~/.warlog/b-log.md" = some 20 ∧
    sampleFS.ModTime "~/.warlog/archive/old.md" = some 5 := by
  decide

/-! ## Saving -/

theorem saveFile_spec (fs fs1 : FS) (now : Time) (C : String) (hwf : fs.WellFormed)
    (h : saveFile fs now C = some fs1) :
    fs1.dataDir = fs.dataDir ∧ fs1.WellFormed ∧
    fs1.contentAt (filePath fs now) = some C ∧
    (∀ c, fs1.ReadFile (filePath fs now) = some c → c = C) ∧
    ∀ q, q ≠ filePath fs now → fs1.lstat q = fs.lstat q := by
  obtain ⟨h1, h2, ⟨i, hi, hic⟩, h4⟩ :=
    WriteFile_spec fs fs1 (fileName now) C now.unixNano hwf (fileName_plain now) h
  refine ⟨h1, h2, ?_, ?_, h4⟩
  · rw [contentAt_eq]
    unfold filePath
    rw [hi]
    exact hic
  · intro c hc
    exact ReadFile_content fs1 _ C c i hi hic hc

/-- C2: a successful `saveFile(C)` at time T leaves a file at
`dataDir/YYYY-MM-DD-hh-mm-log.md` whose content is C, so that a read returns C, and every
other path of the file store is what it was before; the save key in Edit mode performs
exactly this write with the draft as content, and returns whenever the reload of the entry
list does. -/
theorem saveFile_roundtrip (fs fs1 : FS) (now : Time) (C : String) (hwf : fs.WellFormed)
    (h : saveFile fs now C = some fs1) :
    filePath fs now = Join fs.dataDir (stampText now ++ "-log.md") ∧
    fs1.contentAt (filePath fs now) = some C ∧
    (∀ c, fs1.ReadFile (filePath fs now) = some c → c = C) ∧
    (∀ q, q ≠ filePath fs now → fs1.lstat q = fs.lstat q) ∧
    ∀ (tk : Toolkit) (m : model), m.state = .editView → m.textarea.Value = C →
      (∀ r, Update tk fs now m (.KeyMsg "ctrl+s") = .ok r → r.fs = fs1) ∧
      ∀ files, loadFiles fs1 = .ok files →
        ∃ r, Update tk fs now m (.KeyMsg "ctrl+s") = .ok r ∧ r.fs = fs1 ∧
          r.m.files = files := by
  obtain ⟨_, _, h3, h4, h5⟩ := saveFile_spec fs fs1 now C hwf h
  refine ⟨filePath_eq fs now, h3, h4, h5, ?_⟩
  intro tk m hm hC
  constructor
  · intro r hr
    obtain ⟨fs2, files, hw, _, rfl⟩ := Update_save_inv tk fs now m r hm hr
    rw [hC, h] at hw
    cases hw
    exact route_fs _ _ _ _
  · intro files hl
    rw [Update_save_ok tk fs fs1 now m files hm (hC ▸ h) hl]
    exact ⟨_, rfl, route_fs _ _ _ _, by rw [route_files]; rfl⟩

theorem saveFile_roundtrip_witness :
    sampleFS.WellFormed ∧
    saveFile sampleFS sampleTime "entry" = some savedFS ∧
    filePath sampleFS sampleTime = "~/.warlog/2024-03-07-09-05-log.md" ∧
    savedFS.ReadFile "~/.warlog/2024-03-07-09-05-log.md" = some "entry" ∧
    savedFS.contentAt (filePath sampleFS sampleTime) = some "entry" ∧
    (∀ q, q ≠ filePath sampleFS sampleTime → savedFS.lstat q = sampleFS.lstat q) :=
  ⟨by decide, rfl, by decide, by decide,
    (saveFile_roundtrip sampleFS savedFS sampleTime "entry" (by decide) rfl).2.1,
    (saveFile_roundtrip sampleFS savedFS sampleTime "entry" (by decide) rfl).2.2.2.1⟩

/-- C7: two successful saves in the same calendar minute go to the same path; after both,
that path holds the content of the second save and every other path is what it was before
the first. -/
theorem saveFile_same_minute (fs fs1 fs2 : FS) (t1 t2 : Time) (c1 c2 : String)
    (hwf : fs.WellFormed) (hmin : sameMinute t1 t2)
    (h1 : saveFile fs t1 c1 = some fs1) (h2 : saveFile fs1 t2 c2 = some fs2) :
    filePath fs1 t2 = filePath fs t1 ∧
    fs2.contentAt (filePath fs t1) = some c2 ∧
    (∀ c, fs2.ReadFile (filePath fs t1) = some c → c = c2) ∧
    ∀ q, q ≠ filePath fs t1 → fs2.lstat q = fs.lstat q := by
  obtain ⟨hy, hmo, hd, hh, hmi⟩ := hmin
  have hname : fileName t2 = fileName t1 := by
    simp only [fileName, formatMinute, hy, hmo, hd, hh, hmi]
  obtain ⟨hdir, hwf1, _, _, hframe1⟩ := saveFile_spec fs fs1 t1 c1 hwf h1
  have hpath : filePath fs1 t2 = filePath fs t1 := by
    simp only [filePath, hname, hdir]
  obtain ⟨_, _, hc2, hr2, hframe2⟩ := saveFile_spec fs1 fs2 t2 c2 hwf1 h2
  rw [hpath] at hc2 hr2 hframe2
  refine ⟨hpath, hc2, hr2, ?_⟩
  intro q hq
  rw [hframe2 q hq, hframe1 q hq]

theorem saveFile_same_minute_witness :
    sampleFS.WellFormed ∧ sameMinute laterTime sampleTime ∧
    saveFile sampleFS laterTime "first" = some firstFS ∧
    saveFile firstFS sampleTime "second" = some secondFS ∧
    filePath firstFS sampleTime = filePath sampleFS laterTime ∧
    secondFS.ReadFile (filePath sampleFS laterTime) = some "second" ∧
    secondFS.contentAt (filePath sampleFS laterTime) = some "second" ∧
    ∀ q, q ≠ filePath sampleFS laterTime → secondFS.lstat q = sampleFS.lstat q :=
  ⟨by decide, by decide, rfl, rfl,
    (saveFile_same_minute sampleFS firstFS secondFS laterTime sampleTime "first" "second"
      (by decide) (by decide) rfl rfl).1,
    by decide,
    (saveFile_same_minute sampleFS firstFS secondFS laterTime sampleTime "first" "second"
      (by decide) (by decide) rfl rfl).2.1,
    (saveFile_same_minute sampleFS firstFS secondFS laterTime sampleTime "first" "second"
      (by decide) (by decide) rfl rfl).2.2.2⟩

/-- With a mask that takes the write bit from new files, the second save in a minute
fails for a process that is not the superuser: the first save created the file without
the owner's write permission. -/
theorem second_save_can_fail :
    (saveFile { sampleFS with umask := 146 } laterTime "first").isSome = true ∧
    ((saveFile { sampleFS with umask := 146 } laterTime "first").bind
      (fun fs1 => saveFile fs1 sampleTime "second")).isSome = false := by
  decide

/-! ## The state machine -/

/-- C4, as stated, fails: in Edit mode the save key does not reach List mode when the
write fails; `saveFile` then ends the process and `Update` returns no next state. -/
theorem save_edge_not_taken_on_failed_write :
    draftModel.state = .editView ∧
    specMode draftModel.state (.KeyMsg "ctrl+s") = .listView ∧
    Update plainToolkit blockedFS sampleTime draftModel (.KeyMsg "ctrl+s") =
      .error Failure.fatal ∧
    ¬ ∃ r, Update plainToolkit blockedFS sampleTime draftModel (.KeyMsg "ctrl+s") = .ok r :=
  ⟨rfl, rfl, rfl, fun ⟨_, h⟩ => Except.noConfusion h⟩

/-- C4 (amended): whenever `Update` returns, the mode after is the one the specified state
machine gives (one of the five edges, or no change).  `Update` returns, and so takes the
edge, for the new-entry and back keys always, for the save key in Edit mode whenever the
write succeeds and the reload of the entry list returns, and for the confirm key in List
mode whenever the list index is within the entry list; when the write fails, the save key
is fatal. -/
theorem Update_follows_state_machine (tk : Toolkit) (fs : FS) (now : Time) (m : model)
    (msg : Msg) :
    (∀ r, Update tk fs now m msg = .ok r → r.m.state = specMode m.state msg) ∧
    ((m.state = .editView → msg = .KeyMsg "ctrl+s" →
        ∃ fs1 files, saveFile fs now m.textarea.Value = some fs1 ∧
          loadFiles fs1 = .ok files) →
      (m.state = .listView → msg = .KeyMsg "enter" → m.list.Index < m.files.length) →
      ∃ r, Update tk fs now m msg = .ok r ∧ r.m.state = specMode m.state msg) ∧
    (m.state = .editView → msg = .KeyMsg "ctrl+s" →
      saveFile fs now m.textarea.Value = none →
      Update tk fs now m msg = .error Failure.fatal) := by
  have hsafe : ∀ r, Update tk fs now m msg = .ok r → r.m.state = specMode m.state msg := by
    intro r h
    rcases Update_cases tk fs now m msg with hq | ⟨hn, hst⟩ | ⟨hs, hst⟩ | ⟨hb, hst⟩ |
      ⟨he, hst⟩ | ⟨hspec, r1, h1, _, h3, _, _⟩
    · subst hq
      rw [Update_quit] at h
      cases h
      cases hst : m.state <;> simp [specMode]
    · subst hn
      rw [Update_new tk fs now m hst] at h
      cases h
      rw [route_state, hst]
      rfl
    · subst hs
      obtain ⟨fs1, files, _, _, rfl⟩ := Update_save_inv tk fs now m r hst h
      rw [route_state, hst]
      rfl
    · subst hb
      rw [Update_back tk fs now m hst] at h
      cases h
      rw [route_state]
      rcases hst with hst | hst <;> rw [hst] <;> rfl
    · subst he
      rw [Update_enter tk fs now m hst] at h
      cases hget : m.files[m.list.Index]? with
      | none => simp [hget] at h
      | some f =>
        simp only [hget, Except.ok.injEq] at h
        subst h
        rw [route_state, hst]
        rfl
    · rw [h1] at h
      cases h
      rw [h3, hspec]
  refine ⟨hsafe, ?_, ?_⟩
  · intro hsave hidx
    suffices h : ∃ r, Update tk fs now m msg = .ok r by
      obtain ⟨r, hr⟩ := h
      exact ⟨r, hr, hsafe r hr⟩
    rcases Update_cases tk fs now m msg with hq | ⟨hn, hst⟩ | ⟨hs, hst⟩ | ⟨hb, hst⟩ |
      ⟨he, hst⟩ | ⟨_, r1, h1, _⟩
    · subst hq
      exact ⟨_, Update_quit tk fs now m⟩
    · subst hn
      exact ⟨_, Update_new tk fs now m hst⟩
    · subst hs
      obtain ⟨fs1, files, hw, hl⟩ := hsave hst rfl
      exact ⟨_, Update_save_ok tk fs fs1 now m files hst hw hl⟩
    · subst hb
      exact ⟨_, Update_back tk fs now m hst⟩
    · subst he
      rw [Update_enter tk fs now m hst, List.getElem?_eq_getElem (hidx hst rfl)]
      exact ⟨_, rfl⟩
    · exact ⟨r1, h1⟩
  · intro hst hs hw
    subst hs
    rw [Update_save tk fs now m hst, hw]

theorem Update_follows_state_machine_witness :
    (∃ fs1, saveFile sampleFS sampleTime draftModel.textarea.Value = some fs1 ∧
      loadFiles fs1 = .ok savedFiles) ∧
    ∃ r, Update plainToolkit sampleFS sampleTime draftModel (.KeyMsg "ctrl+s") = .ok r ∧
      r.m.state = .listView :=
  ⟨⟨_, rfl, by decide⟩,
    (Update_follows_state_machine plainToolkit sampleFS sampleTime draftModel
      (.KeyMsg "ctrl+s")).2.1 (fun _ _ => ⟨_, savedFiles, rfl, by decide⟩)
      (fun h => nomatch h)⟩

/-- In a data directory with a dangling link among the entries, the save key writes the
file and the reload of the entry list then panics: no next state. -/
theorem save_then_reload_panics :
    (saveFile danglingFS sampleTime "note").isSome = true ∧
    Update plainToolkit danglingFS sampleTime draftModel (.KeyMsg "ctrl+s") =
      .error Failure.nilDereference :=
  ⟨by decide, rfl⟩

/-! ## The draft -/

/-- C9, as stated, fails: after the back key in Edit mode the text area still holds the
draft, and so it does after a successful save. -/
theorem draft_still_held_after_cancel :
    draftModel.state = .editView ∧
    draftModel.textarea.Value = "note" ∧
    (Update plainToolkit sampleFS sampleTime draftModel (.KeyMsg "ctrl+b")).toOption.map
      (fun r => (r.m.state, r.m.textarea.Value)) = some (.listView, "note") ∧
    (Update plainToolkit sampleFS sampleTime draftModel (.KeyMsg "ctrl+s")).toOption.map
      (fun r => (r.m.state, r.m.textarea.Value, r.fs.ReadFile (filePath sampleFS sampleTime))) =
      some (.listView, "note", some "note") := by
  decide

/-- C9 (amended): in Edit mode the back key writes no file and leads to List mode, and the
text area still holds the draft; after a save too, whenever `Update` returns, which it does
when the write succeeds and the reload of the entry list returns, the mode is List and the
text area still holds the draft. -/
theorem cancel_keeps_buffer (tk : Toolkit) (fs : FS) (now : Time) (m : model)
    (hm : m.state = .editView) :
    (∃ r, Update tk fs now m (.KeyMsg "ctrl+b") = .ok r ∧ r.m.state = .listView ∧
      r.fs = fs ∧ r.m.textarea = m.textarea ∧ r.m.textarea.Value = m.textarea.Value) ∧
    (∀ r, Update tk fs now m (.KeyMsg "ctrl+s") = .ok r →
      r.m.state = .listView ∧ r.m.textarea = m.textarea ∧
        r.m.textarea.Value = m.textarea.Value) ∧
    (∀ fs1 files, saveFile fs now m.textarea.Value = some fs1 → loadFiles fs1 = .ok files →
      ∃ r, Update tk fs now m (.KeyMsg "ctrl+s") = .ok r) := by
  refine ⟨?_, ?_, ?_⟩
  · refine ⟨_, Update_back tk fs now m (Or.inl hm), route_state _ _ _ _, route_fs _ _ _ _, ?_⟩
    have : (route tk fs { m with state := .listView } (.KeyMsg "ctrl+b")).m.textarea =
        m.textarea := route_textarea _ _ _ _ (by simp)
    exact ⟨this, by rw [this]⟩
  · intro r hr
    obtain ⟨fs1, files, _, _, rfl⟩ := Update_save_inv tk fs now m r hm hr
    have : (route tk fs1 (refreshList tk { m with state := .listView, files := files })
        (.KeyMsg "ctrl+s")).m.textarea = m.textarea := by
      rw [route_textarea _ _ _ _ (by simp [refreshList])]
      rfl
    refine ⟨?_, this, by rw [this]⟩
    rw [route_state]
    rfl
  · intro fs1 files hw hl
    exact ⟨_, Update_save_ok tk fs fs1 now m files hm hw hl⟩

theorem cancel_keeps_buffer_witness :
    draftModel.state = .editView ∧
    ∃ r, Update plainToolkit sampleFS sampleTime draftModel (.KeyMsg "ctrl+b") = .ok r ∧
      r.m.state = .listView ∧ r.fs = sampleFS ∧ r.m.textarea = draftModel.textarea ∧
      r.m.textarea.Value = draftModel.textarea.Value :=
  ⟨rfl, (cancel_keeps_buffer plainToolkit sampleFS sampleTime draftModel rfl).1⟩

/-! ## The controller -/

/-- C6: on the quit key `Update` returns the quit command together with the unchanged
model, in every mode, and leaves the file store as it was. -/
theorem quit_leaves_everything (tk : Toolkit) (fs : FS) (now : Time) (m : model) :
    Update tk fs now m (.KeyMsg "ctrl+q") = .ok { m := m, cmd := Cmd.Quit, fs := fs } :=
  Update_quit tk fs now m

/-- C8: whenever `Update` returns a model whose Selection differs from the one before, the
mode before was List, the mode after is View, and the event was the confirm key. -/
theorem selection_changes_only_on_select (tk : Toolkit) (fs : FS) (now : Time) (m : model)
    (msg : Msg) (r : Next) (h : Update tk fs now m msg = .ok r)
    (hsel : r.m.selected ≠ m.selected) :
    m.state = .listView ∧ r.m.state = .viewerView ∧ msg = .KeyMsg "enter" := by
  rcases Update_cases tk fs now m msg with hq | ⟨hn, hst⟩ | ⟨hs, hst⟩ | ⟨hb, hst⟩ |
    ⟨he, hst⟩ | ⟨_, r1, h1, _, _, _, hsel1⟩
  · subst hq
    rw [Update_quit] at h
    cases h
    exact absurd rfl hsel
  · subst hn
    rw [Update_new tk fs now m hst] at h
    cases h
    exact absurd (route_selected _ _ _ _) hsel
  · subst hs
    obtain ⟨fs1, files, _, _, rfl⟩ := Update_save_inv tk fs now m r hst h
    exact absurd (route_selected _ _ _ _) hsel
  · subst hb
    rw [Update_back tk fs now m hst] at h
    cases h
    exact absurd (route_selected _ _ _ _) hsel
  · subst he
    rw [Update_enter tk fs now m hst] at h
    cases hget : m.files[m.list.Index]? with
    | none => simp [hget] at h
    | some f =>
      simp only [hget, Except.ok.injEq] at h
      subst h
      exact ⟨hst, route_state _ _ _ _, rfl⟩
  · rw [h1] at h
    cases h
    exact absurd hsel1 hsel

theorem selection_changes_only_on_select_witness :
    Update plainToolkit sampleFS sampleTime (initialModel sampleFiles) (.KeyMsg "enter") =
      .ok { m := { initialModel sampleFiles with
                   selected := "~/.warlog/archive/old.md", state := .viewerView },
            cmd := Cmd.nil, fs := sampleFS } ∧
    ("~/.warlog/archive/old.md" ≠ (initialModel sampleFiles).selected) ∧
    (initialModel sampleFiles).state = .listView ∧
    (Msg.KeyMsg "enter" = .KeyMsg "enter") :=
  ⟨rfl, by decide,
    (selection_changes_only_on_select plainToolkit sampleFS sampleTime
      (initialModel sampleFiles) (.KeyMsg "enter") _ rfl (by decide)).1,
    (selection_changes_only_on_select plainToolkit sampleFS sampleTime
      (initialModel sampleFiles) (.KeyMsg "enter")
      { m := { initialModel sampleFiles with
               selected := "~/.warlog/archive/old.md", state := .viewerView },
        cmd := Cmd.nil, fs := sampleFS } rfl (by decide)).2.2⟩

/-- C10: in List mode the confirm key indexes the entry list with the index of the list
widget: `Update` returns a next state exactly when the index is within the entry list and
fails with an index-out-of-range error otherwise, as it does for every state whose entry
list is empty, which is what `loadFiles` returns for an empty data directory. -/
theorem confirm_needs_index_in_range (tk : Toolkit) (fs : FS) (now : Time) (m : model)
    (hm : m.state = .listView) :
    ((∃ r, Update tk fs now m (.KeyMsg "enter") = .ok r) ↔
      m.list.Index < m.files.length) ∧
    (Update tk fs now m (.KeyMsg "enter") = .error Failure.indexOutOfRange ↔
      ¬ m.list.Index < m.files.length) ∧
    (m.files = [] → Update tk fs now m (.KeyMsg "enter") = .error Failure.indexOutOfRange) ∧
    ∀ dir mode umask priv,
      loadFiles { dataDir := dir, root := .dir mode .nil, umask := umask, privileged := priv } =
        .ok [] := by
  have key : ∀ (hlt : m.list.Index < m.files.length),
      Update tk fs now m (.KeyMsg "enter") =
        .ok (route tk fs { m with selected := m.files[m.list.Index], state := .viewerView }
          (.KeyMsg "enter")) := by
    intro hlt
    rw [Update_enter tk fs now m hm, List.getElem?_eq_getElem hlt]
  have key2 : ¬ m.list.Index < m.files.length →
      Update tk fs now m (.KeyMsg "enter") = .error Failure.indexOutOfRange := by
    intro hge
    rw [Update_enter tk fs now m hm, List.getElem?_eq_none (not_lt.1 hge)]
  refine ⟨⟨?_, fun hlt => ⟨_, key hlt⟩⟩, ⟨?_, key2⟩, ?_, ?_⟩
  · rintro ⟨r, hr⟩
    by_contra hge
    rw [key2 hge] at hr
    cases hr
  · intro herr hlt
    rw [key hlt] at herr
    cases herr
  · intro hnil
    exact key2 (by simp [hnil])
  · intro dir mode umask priv
    have hw : ∀ fs : FS, fs.root = .dir mode .nil → fs.walked = [] := by
      intro fs hroot
      unfold FS.walked
      rw [hroot]
      simp only [Node.walk, Entries.walk]
      split <;> rfl
    unfold loadFiles
    rw [hw ⟨dir, .dir mode .nil, umask, priv⟩ rfl]
    rfl

theorem confirm_needs_index_in_range_witness :
    (initialModel []).state = .listView ∧
    (initialModel []).list.Index = 0 ∧
    loadFiles emptyFS = .ok [] ∧
    Update plainToolkit emptyFS sampleTime (initialModel []) (.KeyMsg "enter") =
      .error Failure.indexOutOfRange :=
  ⟨rfl, rfl, by decide,
    (confirm_needs_index_in_range plainToolkit emptyFS sampleTime (initialModel []) rfl).2.2.1
      rfl⟩

/-- C5: from List mode, the new-entry key, then any messages that neither save nor cancel,
then the back key: the run ends in List mode, the file store is the one before and the
entry list is unchanged. -/
theorem new_entry_then_cancel (tk : Toolkit) (fs : FS) (m : model) (t0 t1 : Time)
    (keys : List (Time × Msg)) (hm : m.state = .listView)
    (hk : ∀ e ∈ keys, editing e.2) :
    ∃ m1, run tk ((t0, .KeyMsg "ctrl+n") :: keys ++ [(t1, .KeyMsg "ctrl+b")]) fs m =
        .ok (m1, fs) ∧
      m1.state = .listView ∧ m1.files = m.files := by
  have h0 := Update_new tk fs t0 m hm
  obtain ⟨m2, h2, h3, h4⟩ := run_editing tk keys
    (route tk fs { m with
        textarea := tk.textareaSetValue (tk.textareaReset m.textarea)
          (formatSecond t0 ++ "\n\n"),
        state := .editView } (.KeyMsg "ctrl+n")).fs
    (route tk fs { m with
        textarea := tk.textareaSetValue (tk.textareaReset m.textarea)
          (formatSecond t0 ++ "\n\n"),
        state := .editView } (.KeyMsg "ctrl+n")).m
    (by rw [route_state]) hk
  rw [route_fs] at h2
  rw [route_files] at h4
  have h5 := Update_back tk fs t1 m2 (Or.inl h3)
  refine ⟨(route tk fs { m2 with state := .listView } (.KeyMsg "ctrl+b")).m, ?_, ?_, ?_⟩
  · rw [List.cons_append, run_cons_ok tk fs t0 m _ _ _ h0, route_fs, run_append, h2]
    simp only
    rw [run_cons_ok tk fs t1 m2 _ _ _ h5, route_fs]
    rfl
  · rw [route_state]
  · rw [route_files]
    exact h4

theorem new_entry_then_cancel_witness :
    (initialModel sampleFiles).state = .listView ∧
    (∀ e ∈ [(sampleTime, Msg.KeyMsg "h"), (sampleTime, Msg.KeyMsg "i"),
        (sampleTime, Msg.KeyMsg "enter"), (sampleTime, Msg.WindowSizeMsg 80 24)],
      editing e.2) ∧
    ∃ m1, run plainToolkit ((laterTime, .KeyMsg "ctrl+n") ::
        [(sampleTime, Msg.KeyMsg "h"), (sampleTime, Msg.KeyMsg "i"),
          (sampleTime, Msg.KeyMsg "enter"), (sampleTime, Msg.WindowSizeMsg 80 24)] ++
        [(sampleTime, .KeyMsg "ctrl+b")]) sampleFS (initialModel sampleFiles) =
          .ok (m1, sampleFS) ∧
      m1.state = .listView ∧ m1.files = (initialModel sampleFiles).files :=
  ⟨rfl, by decide,
    new_entry_then_cancel plainToolkit sampleFS (initialModel sampleFiles) laterTime sampleTime
      _ rfl (by decide)⟩

/-- In List mode with the widget index inside the entry list, the confirm key leads to
View mode with Selection set to the entry at that index, and a following back key to List
mode with the entry list as it was. -/
theorem confirm_then_back (tk : Toolkit) (fs : FS) (now later : Time) (m : model)
    (hm : m.state = .listView) (hlt : m.list.Index < m.files.length) :
    ∃ r, Update tk fs now m (.KeyMsg "enter") = .ok r ∧ r.m.state = .viewerView ∧
      r.m.selected = m.files[m.list.Index] ∧ r.fs = fs ∧
      ∃ r2, Update tk r.fs later r.m (.KeyMsg "ctrl+b") = .ok r2 ∧
        r2.m.state = .listView ∧ r2.m.files = m.files := by
  rw [Update_enter tk fs now m hm, List.getElem?_eq_getElem hlt]
  refine ⟨_, rfl, route_state _ _ _ _, route_selected _ _ _ _, route_fs _ _ _ _, ?_⟩
  rw [Update_back tk _ later _ (Or.inr (route_state _ _ _ _))]
  refine ⟨_, rfl, route_state _ _ _ _, ?_⟩
  rw [route_files]
  exact route_files _ _ _ _

/-- While no filter is set and the widget holds the items of the entry list, the entry at
the widget index is the highlighted one. -/
theorem selectedItem_unfiltered (m : model) (item : listItem)
    (hsync : m.list.items = makeItems m.files)
    (hf : m.list.filterState = FilterState.Unfiltered)
    (hsel : m.list.SelectedItem = some item) :
    m.files[m.list.Index]? = some item.filePath := by
  unfold ListModel.SelectedItem ListModel.VisibleItems at hsel
  simp only [hf, ne_eq, not_true_eq_false, if_false, hsync] at hsel
  split at hsel
  · cases hsel
  · simp only [makeItems, List.getElem?_map, Option.map_eq_some'] at hsel
    obtain ⟨f, hf1, rfl⟩ := hsel
    exact hf1

/-- C3 at a filtered list: the widget highlights `b-log.md`, the only visible item, and
the confirm key sets Selection to the first entry of the entry list instead. -/
theorem confirm_on_filtered_list :
    filteredModel.state = .listView ∧
    filteredModel.files =
      ["~/.warlog/archive/old.md", "~/.warlog/a-log.md", "~/.warlog/b-log.md"] ∧
    filteredModel.list.items = makeItems filteredModel.files ∧
    filteredModel.list.SelectedItem =
      some { title := "b-log.md", filePath := "~/.warlog/b-log.md" } ∧
    (Update plainToolkit sampleFS sampleTime filteredModel (.KeyMsg "enter")).toOption.map
      (fun r => (r.m.state, r.m.selected)) =
        some (.viewerView, "~/.warlog/archive/old.md") := by
  decide

end Warlog
